import Mathlib

/-!
Verification of the rednote-pic2md repository (a tool converting a series of
social-media screenshot images into one Markdown document) against its
natural-language specification.

Python strings are modelled as `List Char` (a Python `str` is a sequence of
Unicode code points, a Lean `Char` is a Unicode scalar value).  Python
whitespace (`str.strip`, regex `\s`) is modelled by the six ASCII whitespace
characters; the regex `\d` is modelled by the ASCII digits.  Each `re.sub`
call of the source is embedded as a specialised left-to-right non-overlapping
scan, faithful to the backtracking semantics of the concrete pattern it
replaces.  Filesystem calls (`os.listdir`, `os.path.isfile`) are abstracted:
a directory is passed in as the list of names of its regular files, and a
failing `os.listdir` is the `none` case of an `Option`.
-/

namespace Pic2Md

/-- Coerce a Lean string literal to the `List Char` model of Python strings. -/
def str (s : String) : List Char := s.data

/-- The whitespace characters recognised by `str.strip` / regex `\s`
(restricted to ASCII, see the module comment). -/
def isWs (c : Char) : Bool :=
  c = ' ' ∨ c = '\t' ∨ c = '\n' ∨ c = '\r' ∨ c = '\x0b' ∨ c = '\x0c'

/-- Python `str.strip()`: remove leading and trailing whitespace. -/
def strip (l : List Char) : List Char :=
  ((l.dropWhile isWs).reverse.dropWhile isWs).reverse

/-! ## src/file_parser.py -/

/-- The literal part `_来自小红书网页版` of the filename pattern
`(.+?)_(\d+)_(.+?)_来自小红书网页版\.(.+)$` (file_parser.py line 18). -/
def litSuffix : List Char := str "_来自小红书网页版"

/-- Match the tail `\.(.+)$` of the filename pattern: a literal dot, then a
greedy non-empty run of non-newline characters, then end of string (Python's
`$` also matches just before one final newline).  Returns the extension
capture group. -/
def matchDotExt : List Char → Option (List Char)
  | '.' :: rest =>
    let e := rest.takeWhile (fun c => c ≠ '\n')
    let r := rest.dropWhile (fun c => c ≠ '\n')
    if e ≠ [] ∧ (r = [] ∨ r = ['\n']) then some e else none
  | _ => none

/-- Match `(.+?)_来自小红书网页版\.(.+)$`: the non-greedy author group tries
the shortest author first (`acc` is the author candidate built so far), and
on failure extends it by one (non-newline) character, exactly as the regex
engine backtracks.  Returns (author, extension). -/
def findAuthor : List Char → List Char → Option (List Char × List Char)
  | _, [] => none
  | acc, c :: rest =>
    if acc ≠ [] ∧ litSuffix.isPrefixOf (c :: rest) ∧
        (matchDotExt ((c :: rest).drop litSuffix.length)).isSome then
      (matchDotExt ((c :: rest).drop litSuffix.length)).map (fun e => (acc, e))
    else
      if c = '\n' then none else findAuthor (acc ++ [c]) rest

/-- Match `(\d+)_`: a greedy non-empty ASCII digit run followed by an
underscore.  (Backtracking to a shorter digit run can never help, because the
character after a shorter run is again a digit, not an underscore.)  Returns
(digit run, remainder after the underscore). -/
def matchDigits (l : List Char) : Option (List Char × List Char) :=
  let d := l.takeWhile Char.isDigit
  match l.dropWhile Char.isDigit with
  | '_' :: rest => if d ≠ [] then some (d, rest) else none
  | _ => none

/-- Match the whole pattern `(.+?)_(\d+)_(.+?)_来自小红书网页版\.(.+)$` from
the start of the string: the non-greedy title group tries the shortest title
first and extends one character at a time when the rest of the pattern fails.
Returns (title, digit run, author, extension). -/
def findTitle : List Char → List Char → Option (List Char × List Char × List Char × List Char)
  | _, [] => none
  | acc, c :: rest =>
    if acc ≠ [] ∧ c = '_' ∧
        (matchDigits rest).elim false (fun p => (findAuthor [] p.2).isSome) then
      (matchDigits rest).bind (fun p => (findAuthor [] p.2).map (fun q => (acc, p.1, q.1, q.2)))
    else
      if c = '\n' then none else findTitle (acc ++ [c]) rest

/-- Numeric value of an ASCII digit run, exactly `int()` on a digit string. -/
def digitsToNat (d : List Char) : Nat :=
  d.foldl (fun n c => 10 * n + (c.toNat - '0'.toNat)) 0

/-- `FileParser.parse_filename` (file_parser.py lines 20-38): match the
filename against the compiled pattern and convert the page group with
`int()` (which never fails on a digit run, so the `except ValueError`
branch is dead for matches of this pattern).  Returns
`(title, page number, author, extension)` or `none`. -/
def parse_filename (filename : List Char) : Option (List Char × Nat × List Char × List Char) :=
  (findTitle [] filename).map (fun r => (r.1, digitsToNat r.2.1, r.2.2.1, r.2.2.2))

/-- `os.path.basename`: the part after the last path separator. -/
def basename (p : List Char) : List Char :=
  (p.reverse.takeWhile (fun c => c ≠ '/')).reverse

/-- `os.path.dirname`: everything before the last separator, with trailing
separators stripped unless the head consists only of separators. -/
def dirname (p : List Char) : List Char :=
  let head := (p.reverse.dropWhile (fun c => c ≠ '/')).reverse
  if head.all (fun c => c = '/') then head
  else (head.reverse.dropWhile (fun c => c = '/')).reverse

/-- `os.path.join` for one relative component. -/
def pathJoin (d n : List Char) : List Char :=
  if n.head? = some '/' then n
  else if d = [] ∨ d.getLast? = some '/' then d ++ n
  else d ++ '/' :: n

/-- One step of a stable insertion sort by a `Nat` key: the new element goes
after all existing elements with a key less than or equal to its own, which
is how Python's stable `sorted(key=...)` orders ties. -/
def insertByKey (key : α → Nat) (x : α) : List α → List α
  | [] => [x]
  | y :: ys => if key y ≤ key x then y :: insertByKey key x ys else x :: y :: ys

/-- Stable sort by a `Nat` key, modelling Python `sorted(iterable, key=...)`. -/
def sortByKey (key : α → Nat) (l : List α) : List α :=
  l.foldl (fun acc x => insertByKey key x acc) []

/-- The sort key of `FileParser.sort_files_by_page_number` (file_parser.py
lines 95-100): the parsed page number of the path's basename, 0 when the
name does not match the pattern. -/
def get_page_number (filePath : List Char) : Nat :=
  match parse_filename (basename filePath) with
  | some r => r.2.1
  | none => 0

/-- `FileParser.sort_files_by_page_number` (file_parser.py lines 85-102). -/
def sort_files_by_page_number (filePaths : List (List Char)) : List (List Char) :=
  sortByKey get_page_number filePaths

/-- The same-series check of `detect_series_files` (file_parser.py lines
68-74): the file's name parses and its title, author and extension equal the
selected file's. -/
def matchesSeries (title author extension : List Char) (file : List Char) : Bool :=
  match parse_filename file with
  | some (t, _, a, e) => decide (t = title ∧ a = author ∧ e = extension)
  | none => false

/-- `FileParser.detect_series_files` (file_parser.py lines 40-83).
`listing` is the result of `os.listdir` restricted to regular files
(`os.path.isfile`), with `none` standing for the `OSError` branch. -/
def detect_series_files (selectedFile : List Char)
    (listing : Option (List (List Char))) : List (List Char) :=
  match parse_filename (basename selectedFile) with
  | none => [selectedFile]
  | some (title, _, author, extension) =>
    let directory := dirname selectedFile
    match listing with
    | none => [selectedFile]
    | some entries =>
      let seriesFiles := (entries.filter (matchesSeries title author extension)).map
        (fun file => pathJoin directory file)
      sort_files_by_page_number seriesFiles

/-- `FileParser.get_missing_files` (file_parser.py lines 178-208): collect
the page numbers of the parseable files, sort them, and list every integer
in the inclusive range from the smallest to the largest that is not a page
number of any file. -/
def get_missing_files (filePaths : List (List Char)) : List Nat :=
  if filePaths = [] then []
  else
    let pageNumbers := filePaths.filterMap
      (fun f => (parse_filename (basename f)).map (fun r => r.2.1))
    if pageNumbers = [] then []
    else
      let sortedPages := sortByKey id pageNumbers
      match sortedPages with
      | [] => []
      | p0 :: _ =>
        (List.range' p0 (sortedPages.getLastD p0 + 1 - p0)).filter
          (fun i => ¬ i ∈ sortedPages)

/-- Python `str.split(sep)` for a one-character separator: split at every
occurrence, keeping empty pieces (`"a\n".split("\n") == ["a", ""]`,
`"".split("\n") == [""]`). -/
def splitOnChar (sep : Char) : List Char → List (List Char)
  | [] => [[]]
  | c :: rest =>
    if c = sep then [] :: splitOnChar sep rest
    else
      match splitOnChar sep rest with
      | p :: ps => (c :: p) :: ps
      | [] => [[c]]

/-- The ASCII digit character of a digit value below ten. -/
def digitChar : Nat → Char
  | 0 => '0' | 1 => '1' | 2 => '2' | 3 => '3' | 4 => '4'
  | 5 => '5' | 6 => '6' | 7 => '7' | 8 => '8' | _ => '9'

/-- Fuel-driven core of the decimal rendering of a natural number; the fuel
is structurally consumed and always suffices when it exceeds the number. -/
def natToCharsAux : Nat → Nat → List Char
  | 0, _ => []
  | fuel + 1, n =>
    if n < 10 then [digitChar n]
    else natToCharsAux fuel (n / 10) ++ [digitChar (n % 10)]

/-- Decimal digit string of a natural number, as Python's `f"{n}"` / `str(n)`. -/
def natToChars (n : Nat) : List Char := natToCharsAux (n + 1) n

/-! ## src/markdown_processor.py -/

/-- `re.sub(r'\s+', ' ', ·)`: replace every maximal whitespace run by one
space (markdown_processor.py line 55). -/
def collapseWs : List Char → List Char
  | [] => []
  | c :: rest =>
    if isWs c then ' ' :: collapseWs (rest.dropWhile isWs)
    else c :: collapseWs rest
termination_by l => l.length
decreasing_by
  · exact Nat.lt_succ_of_le ((List.dropWhile_sublist isWs).length_le)
  · simp

/-- `re.sub(p + r'\s*' + p, p, ·)` for a punctuation mark `p` (the duplicated
punctuation rewrites, markdown_processor.py lines 77-82): a left-to-right
non-overlapping scan; each match `p` `\s*` `p` is replaced by one `p` and the
scan resumes after the match. -/
def subDup (p : Char) : List Char → List Char
  | [] => []
  | c :: rest =>
    if c = p ∧ (rest.dropWhile isWs).head? = some p then
      p :: subDup p (rest.dropWhile isWs).tail
    else c :: subDup p rest
termination_by l => l.length
decreasing_by
  · have h1 := (List.dropWhile_sublist (l := rest) isWs).length_le
    have h2 := (List.tail_sublist (rest.dropWhile isWs)).length_le
    simp only [List.length_cons]; omega
  · simp

/-- `re.sub(r'\s+' + p, p, ·)`: delete a non-empty whitespace run directly
before the mark `p` (markdown_processor.py line 83).  A match can only start
at the first character of a whitespace run, with `\s+` taking the whole run. -/
def subWsPlus (p : Char) : List Char → List Char
  | [] => []
  | c :: rest =>
    if isWs c then
      if (rest.dropWhile isWs).head? = some p then
        p :: subWsPlus p (rest.dropWhile isWs).tail
      else (c :: rest.takeWhile isWs) ++ subWsPlus p (rest.dropWhile isWs)
    else c :: subWsPlus p rest
termination_by l => l.length
decreasing_by
  · have h1 := (List.dropWhile_sublist (l := rest) isWs).length_le
    have h2 := (List.tail_sublist (rest.dropWhile isWs)).length_le
    simp only [List.length_cons]; omega
  · have h1 := (List.dropWhile_sublist (l := rest) isWs).length_le
    simp only [List.length_cons]; omega
  · simp

/-- `re.sub(r'\s*' + p, p, ·)`: same as `subWsPlus` but the whitespace run
may be empty, so a bare `p` is also a match (replaced by itself)
(markdown_processor.py lines 84-88). -/
def subWsStar (p : Char) : List Char → List Char
  | [] => []
  | c :: rest =>
    if c = p then p :: subWsStar p rest
    else if isWs c then
      if (rest.dropWhile isWs).head? = some p then
        p :: subWsStar p (rest.dropWhile isWs).tail
      else (c :: rest.takeWhile isWs) ++ subWsStar p (rest.dropWhile isWs)
    else c :: subWsStar p rest
termination_by l => l.length
decreasing_by
  · simp
  · have h1 := (List.dropWhile_sublist (l := rest) isWs).length_le
    have h2 := (List.tail_sublist (rest.dropWhile isWs)).length_le
    simp only [List.length_cons]; omega
  · have h1 := (List.dropWhile_sublist (l := rest) isWs).length_le
    simp only [List.length_cons]; omega
  · simp

/-- The six punctuation marks of the leading character classes of the
`fix_common_ocr_errors` rewrites. -/
def isPunct6 (c : Char) : Bool :=
  c = '，' ∨ c = '。' ∨ c = '！' ∨ c = '？' ∨ c = '；' ∨ c = '：'

/-- `re.sub(r'([，。！？；：])\s+([，。！？；：])', r'\1\2', ·)` (markdown
_processor.py line 89): delete a non-empty whitespace run between two
punctuation marks; both marks are consumed by the match. -/
def subPunctWsPunct : List Char → List Char
  | [] => []
  | c :: rest =>
    if isPunct6 c ∧ rest.head?.any isWs ∧ (rest.dropWhile isWs).head?.any isPunct6 then
      c :: (rest.dropWhile isWs).take 1 ++ subPunctWsPunct (rest.dropWhile isWs).tail
    else c :: subPunctWsPunct rest
termination_by l => l.length
decreasing_by
  · have h1 := (List.dropWhile_sublist (l := rest) isWs).length_le
    have h2 := (List.tail_sublist (rest.dropWhile isWs)).length_le
    simp only [List.length_cons]; omega
  · simp

/-- `MarkdownProcessor.fix_common_ocr_errors` (markdown_processor.py lines
65-103): the thirteen `re.sub` rewrites applied in source order.  The
`char_fixes` table at lines 96-99 is defined but never applied in the
source, so it has no counterpart here. -/
def fix_common_ocr_errors (text : List Char) : List Char :=
  let t := subDup '，' text
  let t := subDup '。' t
  let t := subDup '！' t
  let t := subDup '？' t
  let t := subDup '；' t
  let t := subDup '：' t
  let t := subWsPlus '，' t
  let t := subWsStar '。' t
  let t := subWsStar '！' t
  let t := subWsStar '？' t
  let t := subWsStar '；' t
  let t := subWsStar '：' t
  subPunctWsPunct t

/-- `MarkdownProcessor.clean_ocr_text` (markdown_processor.py lines 41-63):
empty input short-circuits to `""`; otherwise strip, collapse whitespace
runs to single spaces, apply the punctuation rewrites, and strip again. -/
def clean_ocr_text (rawText : List Char) : List Char :=
  if rawText = [] then []
  else strip (fix_common_ocr_errors (collapseWs (strip rawText)))

/-- Lead-in pattern `^\s*[（(]\d+[）)]\s*` (markdown_processor.py line 34). -/
def startsParenNum (l : List Char) : Bool :=
  match l.dropWhile isWs with
  | c :: rest =>
    (c = '（' ∨ c = '(') ∧ rest.takeWhile Char.isDigit ≠ [] ∧
      (rest.dropWhile Char.isDigit).head?.any (fun d => d = '）' ∨ d = ')')
  | [] => false

/-- Lead-in pattern `^\s*\d+[\.、]\s*` (markdown_processor.py line 35). -/
def startsNumDot (l : List Char) : Bool :=
  let t := l.dropWhile isWs
  t.takeWhile Char.isDigit ≠ [] ∧
    (t.dropWhile Char.isDigit).head?.any (fun d => d = '.' ∨ d = '、')

/-- The character class `[一二三四五六七八九十]`. -/
def isCjkNumeral (c : Char) : Bool :=
  c = '一' ∨ c = '二' ∨ c = '三' ∨ c = '四' ∨ c = '五' ∨
    c = '六' ∨ c = '七' ∨ c = '八' ∨ c = '九' ∨ c = '十'

/-- Lead-in pattern `^\s*[一二三四五六七八九十]+[、\.]\s*` (markdown
_processor.py line 36). -/
def startsCjkNum (l : List Char) : Bool :=
  let t := l.dropWhile isWs
  t.takeWhile isCjkNumeral ≠ [] ∧
    (t.dropWhile isCjkNumeral).head?.any (fun d => d = '、' ∨ d = '.')

/-- Lead-in patterns `^\s*[•·]\s*` and `^\s*[-*]\s*` (markdown_processor.py
lines 37-38). -/
def startsBullet (l : List Char) : Bool :=
  (l.dropWhile isWs).head?.any (fun c => c = '•' ∨ c = '·' ∨ c = '-' ∨ c = '*')

/-- `re.match` of any entry of `paragraph_start_patterns` against the line
(markdown_processor.py lines 33-39 and 135-138). -/
def isNewParagraphStart (l : List Char) : Bool :=
  startsParenNum l ∨ startsNumDot l ∨ startsCjkNum l ∨ startsBullet l

/-- The loop body of `MarkdownProcessor.split_into_paragraphs` (markdown
_processor.py lines 124-149); the state is (current paragraph, finished
paragraphs). -/
def paragraphStep (st : List Char × List (List Char)) (rawLine : List Char) :
    List Char × List (List Char) :=
  let line := strip rawLine
  if line = [] then
    if st.1 ≠ [] then ([], st.2 ++ [strip st.1]) else st
  else if isNewParagraphStart line ∧ st.1 ≠ [] then
    (line, st.2 ++ [strip st.1])
  else if st.1 ≠ [] then (st.1 ++ ' ' :: line, st.2)
  else (line, st.2)

/-- `MarkdownProcessor.split_into_paragraphs` (markdown_processor.py lines
105-155). -/
def split_into_paragraphs (text : List Char) : List (List Char) :=
  if text = [] then []
  else
    let st := (splitOnChar '\n' text).foldl paragraphStep ([], [])
    let paragraphs := if st.1 ≠ [] then st.2 ++ [strip st.1] else st.2
    paragraphs.filter (fun p => p ≠ [])

/-- The `PageContent` dataclass (markdown_processor.py lines 11-17). -/
structure PageContent where
  page_number : Nat
  raw_text : List Char
  cleaned_text : List Char
  paragraphs : List (List Char)
deriving DecidableEq

/-- `MarkdownProcessor.process_page_content` (markdown_processor.py lines
157-176). -/
def process_page_content (pageNumber : Nat) (rawText : List Char) : PageContent :=
  let cleanedText := clean_ocr_text rawText
  ⟨pageNumber, rawText, cleanedText, split_into_paragraphs cleanedText⟩

/-- The page-break marker `f"\n--- 第 {page.page_number} 页 ---\n"`
(markdown_processor.py line 199): note the embedded leading and trailing
newlines. -/
def pageMarker (n : Nat) : List Char :=
  '\n' :: (str "--- 第 " ++ natToChars n ++ str " 页 ---") ++ ['\n']

/-- `MarkdownProcessor.connect_paragraphs_between_pages` (markdown
_processor.py lines 178-204): pages with no paragraphs are skipped; every
enumerated page after the first contributes a page-break marker before its
paragraphs. -/
def connect_paragraphs_between_pages (pages : List PageContent) : List (List Char) :=
  pages.enum.foldl (fun acc ip =>
    if ip.2.paragraphs = [] then acc
    else (if ip.1 > 0 then acc ++ [pageMarker ip.2.page_number] else acc) ++ ip.2.paragraphs) []

/-- `MarkdownProcessor.generate_markdown` (markdown_processor.py lines
237-284).  Both branches of the per-paragraph `if` append the item followed
by an empty line; the branches are kept separate to mirror the source. -/
def generate_markdown (pages : List PageContent) (title author : List Char) : List Char :=
  if pages = [] then []
  else
    let markdownLines :=
      (if title ≠ [] then [str "# " ++ title ++ ['\n']] else []) ++
      (if author ≠ [] then [str "**作者**: " ++ author ++ ['\n']] else []) ++
      [str "---" ++ ['\n']] ++
      ((connect_paragraphs_between_pages pages).flatMap (fun paragraph =>
        if (str "--- 第").isPrefixOf paragraph then [paragraph, []] else [paragraph, []])) ++
      [str "---", [], str "*本文档由小红书图片转Markdown工具自动生成*"]
    List.intercalate ['\n'] markdownLines

/-- The sentence-final marks `[。！？；]` of `_split_sentences` (markdown
_processor.py line 394). -/
def isSentenceEnd (c : Char) : Bool :=
  c = '。' ∨ c = '！' ∨ c = '？' ∨ c = '；'

/-- `re.split(r'([。！？；])', text)`: the alternating list of the pieces
between the marks and the single-character separator groups. -/
def splitPartsAux : List Char → List (List Char)
  | [] => [[]]
  | c :: rest =>
    if isSentenceEnd c then [] :: [c] :: splitPartsAux rest
    else
      match splitPartsAux rest with
      | p :: ps => (c :: p) :: ps
      | [] => [[c]]

/-- The recombination loop of `_split_sentences` (markdown_processor.py
lines 400-410): pieces are taken two at a time (text plus its following
mark); a unit is kept when it is non-blank, and a trailing unpaired piece is
kept when non-blank. -/
def combineSentences : List (List Char) → List (List Char)
  | p :: s :: rest =>
    (if strip (p ++ s) ≠ [] then [p ++ s] else []) ++ combineSentences rest
  | [p] => if strip p ≠ [] then [p] else []
  | [] => []

/-- `MarkdownProcessor._split_sentences` (markdown_processor.py lines
381-410). -/
def split_sentences (text : List Char) : List (List Char) :=
  combineSentences (splitPartsAux text)

/-- The greedy packing loop of `_format_paragraph` (markdown_processor.py
lines 355-379): append a sentence unit to the current line while the result
stays within 80 characters, otherwise emit the line and start a new one. -/
def packLines : List (List Char) → List Char → List (List Char)
  | [], cur => if cur ≠ [] then [cur] else []
  | s :: rest, cur =>
    if cur = [] then packLines rest s
    else if (cur ++ s).length ≤ 80 then packLines rest (cur ++ s)
    else cur :: packLines rest s

/-- `MarkdownProcessor._format_paragraph` (markdown_processor.py lines
338-379): empty input gives no lines, a paragraph of at most 80 characters
passes through unchanged, and longer paragraphs are packed greedily from
sentence units. -/
def format_paragraph (paragraph : List Char) : List (List Char) :=
  if paragraph = [] then []
  else if paragraph.length ≤ 80 then [paragraph]
  else packLines (split_sentences paragraph) []

/-- The horizontal-rule line tested at markdown_processor.py line 322. -/
def hrLine : List Char := str "---"

/-- The page-break marker test `startswith("--- 第")` (markdown_processor.py
lines 270 and 317). -/
def markerStart : List Char := str "--- 第"

/-- The loop body of `MarkdownProcessor.format_markdown_structure`
(markdown_processor.py lines 302-330): blank lines are kept only when the
previous emitted line is not already blank; headings and rules are followed
by a blank line; page-break markers are surrounded by blank lines; any other
line is paragraph-wrapped and followed by a blank line. -/
def formatStep (acc : List (List Char)) (line : List Char) : List (List Char) :=
  let s := strip line
  if s = [] then
    if acc ≠ [] ∧ acc.getLast? ≠ some [] then acc ++ [[]] else acc
  else if s.head? = some '#' then acc ++ [s, []]
  else if markerStart.isPrefixOf s then acc ++ [[], s, []]
  else if s = hrLine then acc ++ [s, []]
  else acc ++ format_paragraph s ++ [[]]

/-- The list of output lines of `format_markdown_structure`: the loop over
the input lines followed by the removal of trailing blank lines (markdown
_processor.py lines 299-334). -/
def format_markdown_lines (markdownText : List Char) : List (List Char) :=
  (((splitOnChar '\n' markdownText).foldl formatStep []).reverse.dropWhile
    (fun l => l = [])).reverse

/-- `MarkdownProcessor.format_markdown_structure` (markdown_processor.py
lines 286-336): empty input short-circuits to `""`; otherwise the output
lines joined with newlines. -/
def format_markdown_structure (markdownText : List Char) : List Char :=
  if markdownText = [] then []
  else List.intercalate ['\n'] (format_markdown_lines markdownText)

/-! ## src/main_window.py (OcrWorker.run, per-page loop) and
src/ocr_service.py (BaiduOcrProvider.recognize_image, result extraction) -/

/-- The placeholder `f"[第{i+1}页 - 未识别到文字内容]"` substituted for an
empty recognition result (main_window.py line 129). -/
def placeholderText (n : Nat) : List Char :=
  str "[第" ++ natToChars n ++ str "页 - 未识别到文字内容]"

/-- The empty-recognition check `if not ocr_text or ocr_text.strip() == ""`
of `OcrWorker.run` (main_window.py lines 126-129) for the page at 0-based
index `pageIndex`. -/
def substituteEmpty (pageIndex : Nat) (ocrText : List Char) : List Char :=
  if ocrText = [] ∨ strip ocrText = [] then placeholderText (pageIndex + 1) else ocrText

/-- The per-page loop of `OcrWorker.run` (main_window.py lines 105-141)
restricted to its data path: `ocrResults` is the list of strings returned by
`self.ocr_service.recognize_image` for the series' files in order (the
progress/status signals, file-existence check and fatal-error path carry no
page data and are outside this model); each page's text is substituted when
empty and handed to `process_page_content` with the 1-based page number. -/
def ocr_worker_pages (ocrResults : List (List Char)) : List PageContent :=
  ocrResults.enum.map (fun ip => process_page_content (ip.1 + 1) (substituteEmpty ip.1 ip.2))

/-- The result extraction of `BaiduOcrProvider.recognize_image`
(ocr_service.py lines 249-262) on a successful API response: `wordsResult`
models the `words_result` list, each item being `some w` when the item has a
`"words"` key with value `w` and `none` otherwise. -/
def baidu_extract_text (wordsResult : List (Option (List Char))) : List Char :=
  if wordsResult = [] then str "未能识别出文字内容，请检查图片清晰度"
  else
    let words := wordsResult.filterMap id
    if words = [] then str "未能识别出有效文字"
    else List.intercalate ['\n'] words

/-! ## Lemmas about the stable key sort -/

theorem insertByKey_perm (key : α → Nat) (x : α) (l : List α) :
    (insertByKey key x l).Perm (x :: l) := by
  induction l with
  | nil => simp [insertByKey]
  | cons y ys ih =>
    simp only [insertByKey]
    split
    · exact (ih.cons y).trans (List.Perm.swap x y ys)
    · exact List.Perm.refl _

theorem sortByKey_perm (key : α → Nat) (l : List α) : (sortByKey key l).Perm l := by
  suffices h : ∀ (l acc : List α), (l.foldl (fun acc x => insertByKey key x acc) acc).Perm (acc ++ l) by
    simpa using h l []
  intro l
  induction l with
  | nil => simp
  | cons x xs ih =>
    intro acc
    refine List.Perm.trans (ih _) (List.Perm.trans ?_ List.perm_middle.symm)
    exact (insertByKey_perm key x acc).append_right xs

theorem mem_insertByKey (key : α → Nat) (x z : α) (l : List α) :
    z ∈ insertByKey key x l ↔ z = x ∨ z ∈ l := by
  rw [(insertByKey_perm key x l).mem_iff, List.mem_cons]

theorem sorted_insertByKey (key : α → Nat) (x : α) (l : List α)
    (h : l.Pairwise (fun a b => key a ≤ key b)) :
    (insertByKey key x l).Pairwise (fun a b => key a ≤ key b) := by
  induction l with
  | nil => simp [insertByKey]
  | cons y ys ih =>
    rw [List.pairwise_cons] at h
    simp only [insertByKey]
    split
    · rw [List.pairwise_cons]
      refine ⟨fun z hz => ?_, ih h.2⟩
      rcases (mem_insertByKey key x z ys).1 hz with hz | hz
      · subst hz; assumption
      · exact h.1 z hz
    · rw [List.pairwise_cons]
      exact ⟨fun z hz => by
        rcases List.mem_cons.1 hz with hz | hz
        · subst hz; omega
        · exact le_trans (by omega) (h.1 z hz), List.pairwise_cons.2 h⟩

theorem sortByKey_sorted (key : α → Nat) (l : List α) :
    (sortByKey key l).Pairwise (fun a b => key a ≤ key b) := by
  suffices h : ∀ (l acc : List α), acc.Pairwise (fun a b => key a ≤ key b) →
      (l.foldl (fun acc x => insertByKey key x acc) acc).Pairwise (fun a b => key a ≤ key b) by
    exact h l [] (by simp)
  intro l
  induction l with
  | nil => intro acc h; simpa using h
  | cons x xs ih => intro acc h; exact ih _ (sorted_insertByKey key x acc h)

/-! ## Claim theorems -/

/-- C8: if the selected file's basename does not match the filename
convention, `detect_series_files` returns exactly the one-element list
holding the selected path, for every possible directory listing (so no
information from the directory scan can influence the result). -/
theorem c8_nonmatching_selection_degrades (selectedFile : List Char)
    (listing : Option (List (List Char)))
    (h : parse_filename (basename selectedFile) = none) :
    detect_series_files selectedFile listing = [selectedFile] := by
  simp [detect_series_files, h]

/-- Witness for C8: `foo.png` does not match the convention, and is returned
alone even though the directory holds a full series. -/
theorem c8_nonmatching_selection_degrades_witness :
    parse_filename (basename (str "foo.png")) = none ∧
    detect_series_files (str "foo.png")
      (some [str "t_1_a_来自小红书网页版.jpg", str "t_2_a_来自小红书网页版.jpg"]) =
      [str "foo.png"] :=
  ⟨by decide, c8_nonmatching_selection_degrades _ _ (by decide)⟩

theorem packLines_length_le : ∀ (units : List (List Char)) (cur : List Char),
    (∀ u ∈ units, u.length ≤ 80) → cur.length ≤ 80 →
    ∀ l ∈ packLines units cur, l.length ≤ 80 := by
  intro units
  induction units with
  | nil =>
    intro cur _ hc l hl
    simp only [packLines] at hl
    split at hl
    · rcases List.mem_singleton.1 hl with rfl; exact hc
    · simp at hl
  | cons s rest ih =>
    intro cur hu hc l hl
    have hs : s.length ≤ 80 := hu s (by simp)
    have hrest : ∀ u ∈ rest, u.length ≤ 80 := fun u hu2 => hu u (by simp [hu2])
    simp only [packLines] at hl
    split at hl
    · exact ih s hrest hs l hl
    · split at hl
      · exact ih _ hrest (by assumption) l hl
      · rcases List.mem_cons.1 hl with rfl | hl
        · exact hc
        · exact ih s hrest hs l hl

/-- C9: if no sentence unit produced by `_split_sentences` for a paragraph
exceeds 80 characters, then every line returned by `_format_paragraph` is at
most 80 characters long (short paragraphs pass through whole; long ones are
packed greedily without splitting a unit). -/
theorem c9_line_wrap_budget (paragraph : List Char)
    (h : ∀ u ∈ split_sentences paragraph, u.length ≤ 80) :
    ∀ l ∈ format_paragraph paragraph, l.length ≤ 80 := by
  intro l hl
  simp only [format_paragraph] at hl
  split at hl
  · simp at hl
  · split at hl
    · rcases List.mem_singleton.1 hl with rfl; assumption
    · exact packLines_length_le _ [] h (by simp) l hl

/-- Witness for C9: an 81-character paragraph whose two sentence units have
41 and 40 characters is wrapped into lines of at most 80 characters. -/
theorem c9_line_wrap_budget_witness :
    (∀ u ∈ split_sentences (List.replicate 40 'a' ++ '。' :: List.replicate 40 'a'),
      u.length ≤ 80) ∧
    ∀ l ∈ format_paragraph (List.replicate 40 'a' ++ '。' :: List.replicate 40 'a'),
      l.length ≤ 80 :=
  ⟨by decide, c9_line_wrap_budget _ (by decide)⟩

/-- C4: when the recognition result for page 3 (index 2) is empty or
whitespace-only, the per-page loop builds that page's `PageContent` with
`raw_text` equal to the non-empty placeholder `[第3页 - 未识别到文字内容]`
(which names page 3), and still produces one `PageContent` per input page,
so the remaining pages are processed rather than the run aborting. -/
theorem c4_empty_recognition_substitution (results : List (List Char)) (r : List Char)
    (h2 : results[2]? = some r) (hr : strip r = []) :
    (ocr_worker_pages results).length = results.length ∧
    (ocr_worker_pages results)[2]? = some (process_page_content 3 (placeholderText 3)) ∧
    (process_page_content 3 (placeholderText 3)).raw_text = placeholderText 3 ∧
    placeholderText 3 ≠ [] := by
  refine ⟨by simp [ocr_worker_pages, List.enum_length], ?_, rfl, by simp [placeholderText, str]⟩
  simp only [ocr_worker_pages, List.getElem?_map, List.getElem?_enum, h2, Option.map_some]
  simp [substituteEmpty, hr]

/-- Witness for C4: a four-page run whose third result is whitespace-only. -/
theorem c4_empty_recognition_substitution_witness :
    ([str "页一", str "页二", str "   ", str "页四"] : List (List Char))[2]? = some (str "   ") ∧
    strip (str "   ") = [] ∧
    (ocr_worker_pages [str "页一", str "页二", str "   ", str "页四"]).length = 4 ∧
    (ocr_worker_pages [str "页一", str "页二", str "   ", str "页四"])[2]? =
      some (process_page_content 3 (placeholderText 3)) :=
  ⟨by decide, by decide,
    (c4_empty_recognition_substitution [str "页一", str "页二", str "   ", str "页四"]
      (str "   ") (by decide) (by decide)).1,
    (c4_empty_recognition_substitution [str "页一", str "页二", str "   ", str "页四"]
      (str "   ") (by decide) (by decide)).2.1⟩

/-- Counterexample for C10: a successful API response whose `words_result`
is the single item `{"words": ""}` makes `BaiduOcrProvider.recognize_image`
return the empty string — the `if not words_result` and `if not words`
guards both pass, and the join of `[""]` is empty — refuting the claim that
every successful response yields a non-empty string. -/
theorem c10_counterexample : baidu_extract_text [some []] = [] := by decide

theorem intercalate_nl_eq_nil (ws : List (List Char)) (h : ws ≠ []) :
    List.intercalate ['\n'] ws = [] ↔ ws = [[]] := by
  match ws with
  | [w] => simp [List.intercalate]
  | w :: w2 :: t =>
    have : List.intercalate ['\n'] (w :: w2 :: t) =
        w ++ '\n' :: List.intercalate ['\n'] (w2 :: t) := by
      simp [List.intercalate, List.intersperse]
    rw [this]
    simp

/-- C10 amended: on a successful API response the extraction returns the
empty string exactly when the extracted words list is `[""]` (one item with
an empty `words` value); in every other case — in particular an empty
`words_result` or items without a `words` key, which yield the fixed hint
texts — the result is non-empty, and only then is the caller-side
empty-result placeholder unreachable. -/
theorem c10_extract_empty_iff (wordsResult : List (Option (List Char))) :
    baidu_extract_text wordsResult = [] ↔ wordsResult.filterMap id = [[]] := by
  by_cases h : wordsResult = []
  · subst h; decide
  · by_cases hw : wordsResult.filterMap id = []
    · rw [show baidu_extract_text wordsResult = str "未能识别出有效文字" from by
        simp [baidu_extract_text, h, hw], hw]
      decide
    · rw [show baidu_extract_text wordsResult =
          List.intercalate ['\n'] (wordsResult.filterMap id) from by
        simp [baidu_extract_text, h, hw]]
      exact intercalate_nl_eq_nil _ hw

/-! ## Soundness of the filename matcher -/

theorem matchDotExt_sound : ∀ l e, matchDotExt l = some e → e ≠ [] := by
  intro l e h
  unfold matchDotExt at h
  split at h
  · simp only [] at h
    split at h
    · simp only [Option.some_inj] at h
      subst h
      exact (by assumption : _ ∧ _).1
    · simp at h
  · simp at h

theorem matchDigits_sound (l d rest : List Char) (h : matchDigits l = some (d, rest)) :
    d ≠ [] ∧ ∀ c ∈ d, c.isDigit := by
  unfold matchDigits at h
  simp only [] at h
  split at h
  · split at h
    · simp only [Option.some_inj, Prod.mk.injEq] at h
      obtain ⟨rfl, rfl⟩ := h
      exact ⟨by assumption, fun c hc => List.mem_takeWhile_imp hc⟩
    · simp at h
  · simp at h

theorem findAuthor_sound : ∀ (l acc a e : List Char),
    findAuthor acc l = some (a, e) → a ≠ [] ∧ e ≠ [] := by
  intro l
  induction l with
  | nil => intro acc a e h; simp [findAuthor] at h
  | cons c rest ih =>
    intro acc a e h
    simp only [findAuthor] at h
    split at h
    · rcases Option.map_eq_some'.1 h with ⟨e2, he2, hq⟩
      simp only [Prod.mk.injEq] at hq
      obtain ⟨rfl, rfl⟩ := hq
      exact ⟨(by assumption : _ ∧ _).1, matchDotExt_sound _ _ he2⟩
    · split at h
      · simp at h
      · exact ih _ _ _ h

theorem findTitle_sound : ∀ (l acc t d a e : List Char),
    findTitle acc l = some (t, d, a, e) →
    t ≠ [] ∧ d ≠ [] ∧ (∀ c ∈ d, c.isDigit) ∧ a ≠ [] ∧ e ≠ [] := by
  intro l
  induction l with
  | nil => intro acc t d a e h; simp [findTitle] at h
  | cons c rest ih =>
    intro acc t d a e h
    simp only [findTitle] at h
    split at h
    · rcases Option.bind_eq_some.1 h with ⟨p, hp, hq⟩
      rcases Option.map_eq_some'.1 hq with ⟨q, hq2, hr⟩
      simp only [Prod.mk.injEq] at hr
      obtain ⟨rfl, rfl, rfl, rfl⟩ := hr
      have hd := matchDigits_sound _ _ _ hp
      have ha := findAuthor_sound _ _ _ _ hq2
      exact ⟨(by assumption : _ ∧ _).1, hd.1, hd.2, ha.1, ha.2⟩
    · split at h
      · simp at h
      · exact ih _ _ _ _ _ h

/-- The well-formedness constraints claimed for every successful parse:
a page number of at least 1 and a lowercase, dot-free extension. -/
def claimParsedWellFormed (r : List Char × Nat × List Char × List Char) : Bool :=
  1 ≤ r.2.1 ∧ r.2.2.2.all (fun c => c ≠ '.' ∧ (c.isAlpha → c.isLower))

/-- Counterexample for C7: the filename `a_0_b_来自小红书网页版.JPG` is
accepted by the pattern with page number 0 (below 1) and the extension
returned verbatim as the uppercase `JPG`; a name with extension `tar.gz`
likewise parses with a dot inside the extension. -/
theorem c7_counterexample :
    (parse_filename (str "a_0_b_来自小红书网页版.JPG")).map claimParsedWellFormed =
      some false ∧
    (parse_filename (str "a_1_b_来自小红书网页版.tar.gz")).map claimParsedWellFormed =
      some false := by
  constructor <;> decide

/-- C7 amended: every successful `parse_filename` result has a non-empty
title, author and extension, and its page number is the numeric value of the
matched digit run — hence at least 0, not at least 1, and the extension is
returned verbatim (possibly uppercase, possibly containing dots). -/
theorem c7_parsed_well_formed (name : List Char) (t a e : List Char) (n : Nat)
    (h : parse_filename name = some (t, n, a, e)) :
    t ≠ [] ∧ a ≠ [] ∧ e ≠ [] ∧
    ∃ d, d ≠ [] ∧ (∀ c ∈ d, c.isDigit) ∧ n = digitsToNat d := by
  rcases Option.map_eq_some'.1 h with ⟨r, hr, he⟩
  obtain ⟨rt, rd, ra, re⟩ := r
  simp only [Prod.mk.injEq] at he
  obtain ⟨rfl, rfl, rfl, rfl⟩ := he
  have hs := findTitle_sound _ _ _ _ _ _ hr
  exact ⟨hs.1, hs.2.2.2.1, hs.2.2.2.2, rd, hs.2.1, hs.2.2.1, rfl⟩

/-- Witness for C7 amended: the canonical example filename parses and its
components are non-empty with a digit-run page number. -/
theorem c7_parsed_well_formed_witness :
    parse_filename (str "t_12_a_来自小红书网页版.jpg") =
      some (str "t", 12, str "a", str "jpg") ∧
    (str "t" ≠ [] ∧ str "a" ≠ [] ∧ str "jpg" ≠ [] ∧
      ∃ d, d ≠ [] ∧ (∀ c ∈ d, c.isDigit) ∧ 12 = digitsToNat d) :=
  ⟨by decide, c7_parsed_well_formed (str "t_12_a_来自小红书网页版.jpg")
    (str "t") (str "a") (str "jpg") 12 (by decide)⟩

/-! ## The filename round trip (C1) -/

/-- The filename built by the naming convention of the claim:
`<title>_<page>_<author>_来自小红书网页版.<ext>`. -/
def buildFilename (t : List Char) (n : Nat) (a e : List Char) : List Char :=
  t ++ '_' :: (natToChars n ++ '_' :: (a ++ (litSuffix ++ '.' :: e)))

theorem digitChar_isDigit (k : Nat) (h : k < 10) : (digitChar k).isDigit := by
  interval_cases k <;> decide

theorem digitChar_val (k : Nat) (h : k < 10) : (digitChar k).toNat - '0'.toNat = k := by
  interval_cases k <;> decide

theorem natToCharsAux_digits : ∀ (fuel n : Nat), n < fuel →
    ∀ c ∈ natToCharsAux fuel n, c.isDigit := by
  intro fuel
  induction fuel with
  | zero => omega
  | succ fuel ih =>
    intro n hn c hc
    unfold natToCharsAux at hc
    split at hc
    · rcases List.mem_singleton.1 hc with rfl
      exact digitChar_isDigit n (by assumption)
    · rcases List.mem_append.1 hc with hc | hc
      · exact ih (n / 10) (by omega) c hc
      · rcases List.mem_singleton.1 hc with rfl
        exact digitChar_isDigit _ (Nat.mod_lt _ (by omega))

theorem natToCharsAux_ne_nil : ∀ (fuel n : Nat), n < fuel → natToCharsAux fuel n ≠ [] := by
  intro fuel
  induction fuel with
  | zero => omega
  | succ fuel _ =>
    intro n _
    unfold natToCharsAux
    split
    · simp
    · simp

theorem digitsToNat_append (xs : List Char) (c : Char) :
    digitsToNat (xs ++ [c]) = 10 * digitsToNat xs + (c.toNat - '0'.toNat) := by
  simp [digitsToNat, List.foldl_append]

theorem digitsToNat_natToCharsAux : ∀ (fuel n : Nat), n < fuel →
    digitsToNat (natToCharsAux fuel n) = n := by
  intro fuel
  induction fuel with
  | zero => omega
  | succ fuel ih =>
    intro n hn
    unfold natToCharsAux
    split
    · simpa [digitsToNat] using digitChar_val n (by assumption)
    · rw [digitsToNat_append, ih (n / 10) (by omega), digitChar_val _ (Nat.mod_lt _ (by omega))]
      omega

theorem natToChars_digits (n : Nat) : ∀ c ∈ natToChars n, c.isDigit :=
  natToCharsAux_digits (n + 1) n (by omega)

theorem natToChars_ne_nil (n : Nat) : natToChars n ≠ [] :=
  natToCharsAux_ne_nil (n + 1) n (by omega)

theorem digitsToNat_natToChars (n : Nat) : digitsToNat (natToChars n) = n :=
  digitsToNat_natToCharsAux (n + 1) n (by omega)

theorem isDigit_ne_underscore (c : Char) (h : c.isDigit) : c ≠ '_' := by
  rintro rfl; exact absurd h (by decide)

theorem takeWhile_all_append (p : Char → Bool) (d : List Char) (x : Char) (r : List Char)
    (hd : ∀ c ∈ d, p c = true) (hx : p x = false) :
    (d ++ x :: r).takeWhile p = d ∧ (d ++ x :: r).dropWhile p = x :: r := by
  induction d with
  | nil => simp [List.takeWhile, List.dropWhile, hx]
  | cons c cs ih =>
    have hc : p c = true := hd c (by simp)
    have ihr := ih (fun c2 hc2 => hd c2 (by simp [hc2]))
    simp [List.takeWhile_cons, List.dropWhile_cons, hc, ihr.1, ihr.2]

theorem isPrefixOf_append_self : ∀ (l r : List Char), l.isPrefixOf (l ++ r) = true := by
  intro l r
  induction l with
  | nil => simp [List.isPrefixOf]
  | cons c cs ih => simp [List.isPrefixOf, ih]

theorem litSuffix_not_prefixOf (c : Char) (xs : List Char) (hc : c ≠ '_') :
    litSuffix.isPrefixOf (c :: xs) = false := by
  rw [show litSuffix = '_' :: str "来自小红书网页版" from by decide]
  simp only [List.isPrefixOf, Bool.and_eq_false_iff]
  left
  simpa using fun h => (hc h.symm).elim

theorem matchDotExt_build (e : List Char) (he0 : e ≠ []) (he : '\n' ∉ e) :
    matchDotExt ('.' :: e) = some e := by
  unfold matchDotExt
  simp only []
  rw [List.takeWhile_eq_self_iff.2 (fun c hc => by
        simp only [decide_eq_true_eq]; rintro rfl; exact he hc),
      List.dropWhile_eq_nil_iff.2 (fun c hc => by
        simp only [decide_eq_true_eq]; rintro rfl; exact he hc)]
  simp [he0]

theorem matchDigits_build (d r : List Char) (hd0 : d ≠ []) (hd : ∀ c ∈ d, c.isDigit) :
    matchDigits (d ++ '_' :: r) = some (d, r) := by
  have h := takeWhile_all_append Char.isDigit d '_' r hd (by decide)
  unfold matchDigits
  simp only []
  rw [h.1, h.2]
  simp [hd0]

theorem findAuthor_eq_close (acc l e : List Char) (h1 : acc ≠ [])
    (h2 : litSuffix.isPrefixOf l = true)
    (h3 : matchDotExt (l.drop litSuffix.length) = some e) :
    findAuthor acc l = some (acc, e) := by
  match l with
  | [] => exact absurd h2 (by decide)
  | c :: rest =>
    simp only [findAuthor]
    rw [if_pos ⟨h1, by rw [h2], by rw [h3]; rfl⟩, h3]
    rfl

theorem findAuthor_eq_step (acc : List Char) (c : Char) (rest : List Char)
    (hg : acc = [] ∨ litSuffix.isPrefixOf (c :: rest) = false ∨
      matchDotExt ((c :: rest).drop litSuffix.length) = none)
    (hc : c ≠ '\n') :
    findAuthor acc (c :: rest) = findAuthor (acc ++ [c]) rest := by
  simp only [findAuthor]
  rw [if_neg, if_neg (by simpa using hc)]
  rintro ⟨ha, hp, hs⟩
  rcases hg with hg | hg | hg
  · exact ha hg
  · rw [hg] at hp; exact Bool.false_ne_true hp
  · rw [hg] at hs; exact Bool.false_ne_true hs

theorem findAuthor_walk : ∀ (a acc rest : List Char),
    (∀ c ∈ a, c ≠ '_' ∧ c ≠ '\n') →
    findAuthor acc (a ++ rest) = findAuthor (acc ++ a) rest := by
  intro a
  induction a with
  | nil => intro acc rest _; simp
  | cons c cs ih =>
    intro acc rest ha
    have hc := ha c (by simp)
    rw [List.cons_append, findAuthor_eq_step acc c (cs ++ rest)
      (Or.inr (Or.inl (litSuffix_not_prefixOf c _ hc.1))) hc.2,
      ih (acc ++ [c]) rest (fun c2 hc2 => ha c2 (by simp [hc2]))]
    simp

theorem findTitle_eq_close (acc rest d r2 a e : List Char) (hacc : acc ≠ [])
    (hd : matchDigits rest = some (d, r2)) (hae : findAuthor [] r2 = some (a, e)) :
    findTitle acc ('_' :: rest) = some (acc, d, a, e) := by
  simp only [findTitle]
  rw [if_pos ⟨hacc, by trivial, by rw [hd]; simpa [Option.elim] using congrArg Option.isSome hae⟩,
    hd]
  simp [hae]

theorem findTitle_eq_step (acc : List Char) (c : Char) (rest : List Char)
    (hg : c ≠ '_') (hc : c ≠ '\n') :
    findTitle acc (c :: rest) = findTitle (acc ++ [c]) rest := by
  simp only [findTitle]
  rw [if_neg, if_neg (by simpa using hc)]
  rintro ⟨-, hce, -⟩
  exact hg hce

theorem findTitle_walk : ∀ (t acc rest : List Char),
    (∀ c ∈ t, c ≠ '_' ∧ c ≠ '\n') →
    findTitle acc (t ++ rest) = findTitle (acc ++ t) rest := by
  intro t
  induction t with
  | nil => intro acc rest _; simp
  | cons c cs ih =>
    intro acc rest ht
    have hc := ht c (by simp)
    rw [List.cons_append, findTitle_eq_step acc c (cs ++ rest) hc.1 hc.2,
      ih (acc ++ [c]) rest (fun c2 hc2 => ht c2 (by simp [hc2]))]
    simp

/-- Counterexample for C1: with an empty title — the empty string contains
no underscore, so the claim covers it — the built filename
`_1_a_来自小红书网页版.jpg` does not match the pattern at all (the title
group `(.+?)` needs at least one character before the first underscore
position that completes a parse), so `parse_filename` returns `NotMatched`
instead of the claimed `("", 1, "a", "jpg")`. -/
theorem c1_counterexample :
    buildFilename [] 1 (str "a") (str "jpg") = str "_1_a_来自小红书网页版.jpg" ∧
    parse_filename (buildFilename [] 1 (str "a") (str "jpg")) = none := by
  constructor <;> decide

/-- C1 amended: for every non-empty title, author and extension containing
neither an underscore nor a newline, and every page number n ≥ 1, parsing
the built filename returns exactly (title, n, author, extension). -/
theorem c1_filename_roundtrip (t a e : List Char) (n : Nat)
    (ht0 : t ≠ []) (ha0 : a ≠ []) (he0 : e ≠ [])
    (ht : ∀ c ∈ t, c ≠ '_' ∧ c ≠ '\n') (ha : ∀ c ∈ a, c ≠ '_' ∧ c ≠ '\n')
    (he : ∀ c ∈ e, c ≠ '_' ∧ c ≠ '\n') (_hn : 1 ≤ n) :
    parse_filename (buildFilename t n a e) = some (t, n, a, e) := by
  have hdigits : ∀ c ∈ natToChars n, Char.isDigit c := natToChars_digits n
  have hfa : findAuthor [] (a ++ (litSuffix ++ '.' :: e)) = some (a, e) := by
    rw [findAuthor_walk a [] (litSuffix ++ '.' :: e) ha]
    exact findAuthor_eq_close a _ e ha0 (isPrefixOf_append_self _ _)
      (by rw [List.drop_left]
          exact matchDotExt_build e he0 (fun hc => ((he '\n' hc).2 rfl).elim))
  have hmd : matchDigits (natToChars n ++ '_' :: (a ++ (litSuffix ++ '.' :: e))) =
      some (natToChars n, a ++ (litSuffix ++ '.' :: e)) :=
    matchDigits_build _ _ (natToChars_ne_nil n) hdigits
  have hft : findTitle [] (buildFilename t n a e) = some (t, natToChars n, a, e) := by
    unfold buildFilename
    rw [findTitle_walk t [] _ ht]
    simpa using findTitle_eq_close t _ _ _ a e ht0 hmd hfa
  rw [parse_filename, hft]
  simp [digitsToNat_natToChars]

/-- Witness for C1 amended: a concrete title/author/extension round trip. -/
theorem c1_filename_roundtrip_witness :
    (∀ c ∈ str "标题", c ≠ '_' ∧ c ≠ '\n') ∧ (1 ≤ 3) ∧
    parse_filename (buildFilename (str "标题") 3 (str "作者") (str "jpg")) =
      some (str "标题", 3, str "作者", str "jpg") :=
  ⟨by decide, by decide,
    c1_filename_roundtrip (str "标题") (str "作者") (str "jpg") 3
      (by decide) (by decide) (by decide) (by decide) (by decide) (by decide) (by decide)⟩

/-! ## Series ordering (C5) -/

theorem basename_eq_self (n : List Char) (hn : '/' ∉ n) : basename n = n := by
  unfold basename
  rw [List.takeWhile_eq_self_iff.2 (fun c hc => by
    simp only [decide_eq_true_eq]
    rintro rfl
    exact hn (List.mem_reverse.1 hc))]
  exact List.reverse_reverse n

theorem basename_append_sep (d n : List Char) (hn : '/' ∉ n) :
    basename (d ++ '/' :: n) = n := by
  unfold basename
  rw [List.reverse_append, List.reverse_cons, List.append_assoc, List.singleton_append,
    (takeWhile_all_append _ n.reverse '/' d.reverse
      (fun c hc => by
        simp only [decide_eq_true_eq]
        rintro rfl
        exact hn (List.mem_reverse.1 hc)) (by simp)).1]
  exact List.reverse_reverse n

theorem basename_pathJoin (d n : List Char) (hn : '/' ∉ n) :
    basename (pathJoin d n) = n := by
  unfold pathJoin
  split
  · rcases n with _ | ⟨c, n2⟩
    · simp at *
    · simp only [List.head?_cons, Option.some_inj] at *
      subst c
      exact absurd (List.mem_cons_self '/' n2) hn
  · split
    · rename_i hd
      rcases hd with rfl | hd
      · simpa using basename_eq_self n hn
      · have hrev : d.reverse.head? = some '/' := by
          rw [List.head?_reverse]; exact hd
        rcases hr : d.reverse with _ | ⟨c, tail⟩
        · rw [hr] at hrev; simp at hrev
        · rw [hr, List.head?_cons, Option.some_inj] at hrev
          subst hrev
          have hd2 : d = tail.reverse ++ '/' :: [] := by
            have := congrArg List.reverse hr
            simpa using this
          rw [hd2, List.append_assoc]
          simpa using basename_append_sep tail.reverse n hn
    · exact basename_append_sep d n hn

theorem get_page_number_pathJoin (d f : List Char) (hf : '/' ∉ f) :
    get_page_number (pathJoin d f) = get_page_number f := by
  unfold get_page_number
  rw [basename_pathJoin d f hf, basename_eq_self f hf]

/-- C5: when the selected file parses with series key (title, author,
extension) and the directory's matching regular files carry the page numbers
{5,2,1,3,4}, `detect_series_files` returns exactly those five paths (as a
permutation of the joined matching names) with their page numbers in
ascending order [1,2,3,4,5].  The hypothesis that directory entries contain
no separator reflects `os.listdir`, which returns bare names. -/
theorem c5_series_ordering (selectedFile : List Char) (entries : List (List Char))
    (t a e : List Char) (n : Nat)
    (hsel : parse_filename (basename selectedFile) = some (t, n, a, e))
    (hslash : ∀ f ∈ entries, '/' ∉ f)
    (hpages : ((entries.filter (matchesSeries t a e)).map get_page_number).Perm
      [5, 2, 1, 3, 4]) :
    (detect_series_files selectedFile (some entries)).map get_page_number =
      [1, 2, 3, 4, 5] ∧
    (detect_series_files selectedFile (some entries)).Perm
      ((entries.filter (matchesSeries t a e)).map (pathJoin (dirname selectedFile))) := by
  have hdet : detect_series_files selectedFile (some entries) =
      sort_files_by_page_number ((entries.filter (matchesSeries t a e)).map
        (pathJoin (dirname selectedFile))) := by
    simp [detect_series_files, hsel]
  set L := (entries.filter (matchesSeries t a e)).map (pathJoin (dirname selectedFile)) with hL
  have hperm : (sortByKey get_page_number L).Perm L := sortByKey_perm _ _
  have hsorted := sortByKey_sorted get_page_number L
  refine ⟨?_, by rw [hdet]; exact hperm.trans (List.Perm.refl _)⟩
  have hmapL : L.map get_page_number =
      (entries.filter (matchesSeries t a e)).map get_page_number := by
    rw [hL, List.map_map]
    exact List.map_congr_left (fun f hf =>
      get_page_number_pathJoin _ f (hslash f (List.mem_of_mem_filter hf)))
  have hp2 : ((sortByKey get_page_number L).map get_page_number).Perm [1, 2, 3, 4, 5] := by
    refine (hperm.map get_page_number).trans ?_
    rw [hmapL]
    exact hpages.trans (by decide)
  have hs2 : ((sortByKey get_page_number L).map get_page_number).Pairwise (· ≤ ·) :=
    List.pairwise_map.2 hsorted
  rw [hdet]
  exact List.eq_of_perm_of_sorted hp2 hs2 (by decide)

/-- Witness for C5: a directory of five series files (pages 5,2,1,3,4) and
one foreign file, resolved from the page-2 file. -/
theorem c5_series_ordering_witness :
    parse_filename (basename (str "/d/t_2_a_来自小红书网页版.jpg")) =
      some (str "t", 2, str "a", str "jpg") ∧
    (detect_series_files (str "/d/t_2_a_来自小红书网页版.jpg")
      (some [str "t_5_a_来自小红书网页版.jpg", str "t_2_a_来自小红书网页版.jpg",
        str "t_1_a_来自小红书网页版.jpg", str "other.txt",
        str "t_3_a_来自小红书网页版.jpg", str "t_4_a_来自小红书网页版.jpg"])).map
      get_page_number = [1, 2, 3, 4, 5] :=
  ⟨by decide,
    (c5_series_ordering (str "/d/t_2_a_来自小红书网页版.jpg")
      [str "t_5_a_来自小红书网页版.jpg", str "t_2_a_来自小红书网页版.jpg",
        str "t_1_a_来自小红书网页版.jpg", str "other.txt",
        str "t_3_a_来自小红书网页版.jpg", str "t_4_a_来自小红书网页版.jpg"]
      (str "t") (str "a") (str "jpg") 2 (by decide) (by decide) (by decide)).1⟩

/-! ## Missing pages (C6) -/

theorem mem_range_iff (s n m : Nat) : m ∈ List.range' s n ↔ s ≤ m ∧ m < s + n := by
  simp only [List.mem_range']
  constructor
  · rintro ⟨i, hi, rfl⟩; omega
  · intro h; exact ⟨m - s, by omega, by omega⟩

theorem getLastD_mem : ∀ (l : List Nat) (d : Nat), l ≠ [] → l.getLastD d ∈ l := by
  intro l
  induction l with
  | nil => simp
  | cons a t ih =>
    intro d _
    rw [List.getLastD_cons]
    rcases t with _ | ⟨b, t2⟩
    · simp
    · exact List.mem_cons_of_mem a (ih a (by simp))

theorem pairwise_le_getLastD : ∀ (l : List Nat), l.Pairwise (· ≤ ·) →
    ∀ (d : Nat), ∀ x ∈ l, x ≤ l.getLastD d := by
  intro l
  induction l with
  | nil => simp
  | cons a t ih =>
    intro hp d x hx
    rw [List.pairwise_cons] at hp
    rw [List.getLastD_cons]
    rcases List.mem_cons.1 hx with rfl | hx
    · rcases t with _ | ⟨b, t2⟩
      · simp
      · exact hp.1 _ (getLastD_mem (b :: t2) x (by simp))
    · exact ih hp.2 a x hx

/-- C6: for a non-empty list of files that all parse, `get_missing_files`
returns, in strictly ascending order, exactly the integers of the inclusive
range [min page, max page] that are no file's page number; the result is
empty if and only if every integer of that range is some file's page
number (the pages are contiguous).  `pmin`/`pmax` are certified to be the
minimum and maximum of the parsed page numbers. -/
theorem c6_missing_pages (filePaths : List (List Char))
    (hne : filePaths ≠ [])
    (hall : ∀ f ∈ filePaths, (parse_filename (basename f)).isSome) :
    ∃ pmin pmax,
      let pages := filePaths.filterMap
        (fun f => (parse_filename (basename f)).map (fun r => r.2.1))
      (pmin ∈ pages ∧ pmax ∈ pages ∧ ∀ p ∈ pages, pmin ≤ p ∧ p ≤ pmax) ∧
      (∀ i, i ∈ get_missing_files filePaths ↔ pmin ≤ i ∧ i ≤ pmax ∧ i ∉ pages) ∧
      (get_missing_files filePaths).Pairwise (· < ·) ∧
      (get_missing_files filePaths = [] ↔ ∀ i, pmin ≤ i → i ≤ pmax → i ∈ pages) := by
  set pages := filePaths.filterMap
    (fun f => (parse_filename (basename f)).map (fun r => r.2.1)) with hpages
  have hpne : pages ≠ [] := by
    rcases filePaths with _ | ⟨f0, rest⟩
    · exact absurd rfl hne
    · rcases Option.isSome_iff_exists.1 (hall f0 (by simp)) with ⟨r, hr⟩
      intro hcon
      have : r.2.1 ∈ pages := List.mem_filterMap.2 ⟨f0, by simp, by rw [hr]; rfl⟩
      rw [hcon] at this
      exact absurd this (List.not_mem_nil _)
  have hsp : (sortByKey id pages).Perm pages := sortByKey_perm id pages
  have hss : (sortByKey id pages).Pairwise (· ≤ ·) := by
    simpa using sortByKey_sorted id pages
  rcases hsort : sortByKey id pages with _ | ⟨p0, restS⟩
  · rw [hsort] at hsp
    exact absurd hsp.symm.eq_nil hpne
  · rw [hsort] at hsp hss
    have hmiss : get_missing_files filePaths =
        (List.range' p0 ((p0 :: restS).getLastD p0 + 1 - p0)).filter
          (fun i => ¬ i ∈ (p0 :: restS)) := by
      unfold get_missing_files
      rw [if_neg hne]
      simp only [← hpages, hsort]
      rw [if_neg hpne]
    have hM : p0 ≤ (p0 :: restS).getLastD p0 :=
      pairwise_le_getLastD _ hss p0 p0 (by simp)
    have hmem : ∀ i, i ∈ (p0 :: restS) ↔ i ∈ pages := fun i => hsp.mem_iff
    refine ⟨p0, (p0 :: restS).getLastD p0, ?_, ?_, ?_, ?_⟩
    · refine ⟨(hmem p0).1 (by simp), (hmem _).1 (getLastD_mem _ _ (by simp)), ?_⟩
      intro p hp
      have hp2 : p ∈ p0 :: restS := (hmem p).2 hp
      constructor
      · rcases List.mem_cons.1 hp2 with rfl | hp2
        · exact le_refl p
        · exact (List.pairwise_cons.1 hss).1 p hp2
      · exact pairwise_le_getLastD _ hss p0 p hp2
    · intro i
      rw [hmiss, List.mem_filter, mem_range_iff]
      constructor
      · rintro ⟨⟨h1, h2⟩, h3⟩
        simp only [decide_eq_true_eq] at h3
        exact ⟨h1, by omega, fun hc => h3 ((hmem i).2 hc)⟩
      · rintro ⟨h1, h2, h3⟩
        refine ⟨⟨h1, by omega⟩, ?_⟩
        simp only [decide_eq_true_eq]
        exact fun hc => h3 ((hmem i).1 hc)
    · rw [hmiss]
      exact List.Pairwise.sublist (List.filter_sublist _) (List.pairwise_lt_range' _ _)
    · rw [hmiss, List.filter_eq_nil_iff]
      constructor
      · intro h i h1 h2
        have := h i (mem_range_iff _ _ _ |>.2 ⟨h1, by omega⟩)
        simp only [decide_eq_true_eq, not_not] at this
        exact (hmem i).1 this
      · intro h a ha
        rcases (mem_range_iff _ _ _).1 ha with ⟨h1, h2⟩
        simp only [decide_eq_true_eq, not_not]
        exact (hmem a).2 (h a h1 (by omega))

/-- Witness for C6: four files with pages {1,2,4,5}; the characterization
instantiates with minimum 1 and maximum 5, and indeed
`get_missing_files` computes `[3]`. -/
theorem c6_missing_pages_witness :
    get_missing_files [str "t_1_a_来自小红书网页版.png", str "t_2_a_来自小红书网页版.png",
      str "t_4_a_来自小红书网页版.png", str "t_5_a_来自小红书网页版.png"] = [3] ∧
    ∃ pmin pmax,
      let pages := ([str "t_1_a_来自小红书网页版.png", str "t_2_a_来自小红书网页版.png",
        str "t_4_a_来自小红书网页版.png", str "t_5_a_来自小红书网页版.png"]).filterMap
        (fun f => (parse_filename (basename f)).map (fun r => r.2.1))
      (pmin ∈ pages ∧ pmax ∈ pages ∧ ∀ p ∈ pages, pmin ≤ p ∧ p ≤ pmax) ∧
      (∀ i, i ∈ get_missing_files [str "t_1_a_来自小红书网页版.png",
          str "t_2_a_来自小红书网页版.png", str "t_4_a_来自小红书网页版.png",
          str "t_5_a_来自小红书网页版.png"] ↔ pmin ≤ i ∧ i ≤ pmax ∧ i ∉ pages) ∧
      (get_missing_files [str "t_1_a_来自小红书网页版.png", str "t_2_a_来自小红书网页版.png",
        str "t_4_a_来自小红书网页版.png", str "t_5_a_来自小红书网页版.png"]).Pairwise (· < ·) ∧
      (get_missing_files [str "t_1_a_来自小红书网页版.png", str "t_2_a_来自小红书网页版.png",
          str "t_4_a_来自小红书网页版.png", str "t_5_a_来自小红书网页版.png"] = [] ↔
        ∀ i, pmin ≤ i → i ≤ pmax → i ∈ pages) :=
  ⟨by decide,
    c6_missing_pages [str "t_1_a_来自小红书网页版.png", str "t_2_a_来自小红书网页版.png",
      str "t_4_a_来自小红书网页版.png", str "t_5_a_来自小红书网页版.png"]
      (by decide) (by decide)⟩

/-! ## Idempotence infrastructure for `clean_ocr_text` (C2) -/

theorem head_dropWhile (p : Char → Bool) :
    ∀ (l : List Char) (c : Char) (r : List Char), l.dropWhile p = c :: r → p c = false := by
  intro l
  induction l with
  | nil => intro c r h; simp at h
  | cons a t ih =>
    intro c r h
    rw [List.dropWhile_cons] at h
    split at h
    · exact ih c r h
    · rcases h with ⟨rfl, rfl⟩
      exact Bool.eq_false_iff.2 (by assumption)

theorem dropWhile_eq_self_of_head (p : Char → Bool) (l : List Char)
    (h : ∀ c r, l = c :: r → p c = false) : l.dropWhile p = l := by
  rcases l with _ | ⟨c, r⟩
  · rfl
  · rw [List.dropWhile_cons, if_neg (by simp [h c r rfl])]

theorem strip_decomp (l : List Char) :
    l.dropWhile isWs = strip l ++ ((l.dropWhile isWs).reverse.takeWhile isWs).reverse := by
  unfold strip
  conv_lhs => rw [← List.reverse_reverse (l.dropWhile isWs),
    ← List.takeWhile_append_dropWhile isWs (l.dropWhile isWs).reverse]
  rw [List.reverse_append]

theorem strip_noLead (l : List Char) :
    ∀ c r, strip l = c :: r → isWs c = false := by
  intro c r h
  have hd := strip_decomp l
  rw [h] at hd
  exact head_dropWhile isWs l c _ hd

theorem strip_noTrail (l : List Char) :
    ∀ c r, (strip l).reverse = c :: r → isWs c = false := by
  intro c r h
  unfold strip at h
  rw [List.reverse_reverse] at h
  exact head_dropWhile isWs _ c r h

theorem strip_idem (l : List Char) : strip (strip l) = strip l := by
  conv_lhs => rw [strip]
  rw [dropWhile_eq_self_of_head isWs (strip l) (strip_noLead l),
    dropWhile_eq_self_of_head isWs (strip l).reverse (strip_noTrail l),
    List.reverse_reverse]

/-- Whitespace-normal strings: every whitespace character is a single space
followed by a non-whitespace character (or the end).  `collapseWs` produces
exactly such strings and is the identity on them. -/
def WsNormal : List Char → Prop
  | [] => True
  | c :: rest =>
    (isWs c = true → c = ' ' ∧ ∀ d r, rest = d :: r → isWs d = false) ∧ WsNormal rest

theorem collapseWs_eq_self (l : List Char) (h : WsNormal l) : collapseWs l = l := by
  induction l with
  | nil => simp only [collapseWs]
  | cons c rest ih =>
    obtain ⟨h1, h2⟩ := h
    unfold collapseWs
    by_cases hc : isWs c = true
    · obtain ⟨rfl, hnext⟩ := h1 hc
      rw [if_pos hc, dropWhile_eq_self_of_head isWs rest hnext, ih h2]
    · rw [if_neg hc, ih h2]

theorem collapse_head (z : List Char) (hz : ∀ c r, z = c :: r → isWs c = false) :
    ∀ c r, collapseWs z = c :: r → isWs c = false := by
  intro c r h
  rcases z with _ | ⟨d, r2⟩
  · simp [collapseWs] at h
  · have hd := hz d r2 rfl
    unfold collapseWs at h
    rw [if_neg (by simp [hd])] at h
    rcases h with ⟨rfl, rfl⟩
    exact hd

theorem wsNormal_collapse : ∀ (N : Nat) (l : List Char), l.length ≤ N →
    WsNormal (collapseWs l) := by
  intro N
  induction N with
  | zero =>
    intro l hl
    have hl0 : l = [] := List.eq_nil_of_length_eq_zero (by omega)
    subst hl0
    simp only [collapseWs]
    exact trivial
  | succ N ih =>
    intro l hl
    rcases l with _ | ⟨c, rest⟩
    · simp only [collapseWs]
      exact trivial
    · unfold collapseWs
      by_cases hc : isWs c = true
      · rw [if_pos hc]
        have hlen : (rest.dropWhile isWs).length ≤ N := by
          have := (List.dropWhile_sublist (l := rest) isWs).length_le
          simp only [List.length_cons] at hl
          omega
        exact ⟨fun _ => ⟨rfl, collapse_head _ (head_dropWhile isWs rest)⟩, ih _ hlen⟩
      · rw [if_neg hc]
        refine ⟨fun hw => absurd hw hc, ih rest ?_⟩
        simp only [List.length_cons] at hl
        omega

theorem wsNormal_dropWhile (p : Char → Bool) :
    ∀ (l : List Char), WsNormal l → WsNormal (l.dropWhile p) := by
  intro l
  induction l with
  | nil => intro h; exact h
  | cons c rest ih =>
    intro h
    rw [List.dropWhile_cons]
    split
    · exact ih h.2
    · exact h

theorem wsNormal_append_left : ∀ (l r : List Char), WsNormal (l ++ r) → WsNormal l := by
  intro l
  induction l with
  | nil => intro r _; exact trivial
  | cons c l2 ih =>
    intro r h
    rcases h with ⟨h1, h2⟩
    refine ⟨fun hw => ⟨(h1 hw).1, fun d r2 hdr => ?_⟩, ih r h2⟩
    exact (h1 hw).2 d (r2 ++ r) (by rw [hdr]; simp)

theorem wsNormal_strip (l : List Char) (h : WsNormal l) : WsNormal (strip l) := by
  have hs1 : WsNormal (l.dropWhile isWs) := wsNormal_dropWhile isWs l h
  rw [strip_decomp l] at hs1
  exact wsNormal_append_left _ _ hs1

theorem collapse_strip_collapse (y : List Char) :
    collapseWs (strip (collapseWs y)) = strip (collapseWs y) :=
  collapseWs_eq_self _ (wsNormal_strip _ (wsNormal_collapse y.length y (le_refl _)))

theorem head?_dropWhile_mem (p : Char → Bool) (l : List Char) (x : Char)
    (h : (l.dropWhile p).head? = some x) : x ∈ l := by
  have hx : x ∈ l.dropWhile p := by
    rcases hd : l.dropWhile p with _ | ⟨c, r⟩
    · rw [hd] at h; simp at h
    · rw [hd] at h
      simp only [List.head?_cons, Option.some_inj] at h
      subst h
      exact List.mem_cons_self c r
  exact (List.dropWhile_sublist p).subset hx

theorem subDup_id (p : Char) : ∀ (t : List Char), p ∉ t → subDup p t = t := by
  intro t
  induction t with
  | nil => intro _; simp only [subDup]
  | cons c rest ih =>
    intro hp
    unfold subDup
    rw [if_neg, ih (fun hm => hp (List.mem_cons_of_mem c hm))]
    rintro ⟨rfl, -⟩
    exact hp (List.mem_cons_self c rest)

theorem subWsStar_id (p : Char) : ∀ (N : Nat) (t : List Char), t.length ≤ N → p ∉ t →
    subWsStar p t = t := by
  intro N
  induction N with
  | zero =>
    intro t ht _
    have ht0 : t = [] := List.eq_nil_of_length_eq_zero (by omega)
    subst ht0
    simp only [subWsStar]
  | succ N ih =>
    intro t ht hp
    rcases t with _ | ⟨c, rest⟩
    · simp only [subWsStar]
    · have hps : p ∉ rest := fun hm => hp (List.mem_cons_of_mem c hm)
      unfold subWsStar
      rw [if_neg (fun hc => hp (by rw [← hc]; exact List.mem_cons_self c rest))]
      by_cases hw : isWs c = true
      · rw [if_pos hw,
          if_neg (fun hh => hps (head?_dropWhile_mem isWs rest p hh)),
          ih (rest.dropWhile isWs)
            (by have := (List.dropWhile_sublist (l := rest) isWs).length_le
                simp only [List.length_cons] at ht; omega)
            (fun hm => hps ((List.dropWhile_sublist isWs).subset hm))]
        simp [List.takeWhile_append_dropWhile]
      · rw [if_neg hw,
          ih rest (by simp only [List.length_cons] at ht; omega) hps]

theorem subWsPlus_id (p : Char) : ∀ (N : Nat) (t : List Char), t.length ≤ N → p ∉ t →
    subWsPlus p t = t := by
  intro N
  induction N with
  | zero =>
    intro t ht _
    have ht0 : t = [] := List.eq_nil_of_length_eq_zero (by omega)
    subst ht0
    simp only [subWsPlus]
  | succ N ih =>
    intro t ht hp
    rcases t with _ | ⟨c, rest⟩
    · simp only [subWsPlus]
    · have hps : p ∉ rest := fun hm => hp (List.mem_cons_of_mem c hm)
      unfold subWsPlus
      by_cases hw : isWs c = true
      · rw [if_pos hw,
          if_neg (fun hh => hps (head?_dropWhile_mem isWs rest p hh)),
          ih (rest.dropWhile isWs)
            (by have := (List.dropWhile_sublist (l := rest) isWs).length_le
                simp only [List.length_cons] at ht; omega)
            (fun hm => hps ((List.dropWhile_sublist isWs).subset hm))]
        simp [List.takeWhile_append_dropWhile]
      · rw [if_neg hw,
          ih rest (by simp only [List.length_cons] at ht; omega) hps]

theorem subPunctWsPunct_id : ∀ (t : List Char), (∀ c ∈ t, isPunct6 c = false) →
    subPunctWsPunct t = t := by
  intro t
  induction t with
  | nil => intro _; simp only [subPunctWsPunct]
  | cons c rest ih =>
    intro hpf
    unfold subPunctWsPunct
    rw [if_neg, ih (fun d hd => hpf d (List.mem_cons_of_mem c hd))]
    rintro ⟨hpc, -⟩
    rw [hpf c (List.mem_cons_self c rest)] at hpc
    exact Bool.false_ne_true hpc

theorem mem_collapseWs : ∀ (N : Nat) (l : List Char), l.length ≤ N →
    ∀ c ∈ collapseWs l, c ∈ l ∨ c = ' ' := by
  intro N
  induction N with
  | zero =>
    intro l hl c hc
    have hl0 : l = [] := List.eq_nil_of_length_eq_zero (by omega)
    subst hl0
    simp only [collapseWs] at hc
    simp at hc
  | succ N ih =>
    intro l hl c hc
    rcases l with _ | ⟨d, rest⟩
    · simp only [collapseWs] at hc; simp at hc
    · unfold collapseWs at hc
      split at hc
      · rcases List.mem_cons.1 hc with rfl | hc
        · right; rfl
        · rcases ih (rest.dropWhile isWs)
            (by have := (List.dropWhile_sublist (l := rest) isWs).length_le
                simp only [List.length_cons] at hl; omega) c hc with hm | hm
          · exact Or.inl (List.mem_cons_of_mem d ((List.dropWhile_sublist isWs).subset hm))
          · exact Or.inr hm
      · rcases List.mem_cons.1 hc with rfl | hc
        · exact Or.inl (List.mem_cons_self _ _)
        · rcases ih rest (by simp only [List.length_cons] at hl; omega) c hc with hm | hm
          · exact Or.inl (List.mem_cons_of_mem d hm)
          · exact Or.inr hm

theorem mem_strip (l : List Char) (c : Char) (h : c ∈ strip l) : c ∈ l := by
  unfold strip at h
  rw [List.mem_reverse] at h
  have h2 := (List.dropWhile_sublist isWs).subset h
  rw [List.mem_reverse] at h2
  exact (List.dropWhile_sublist isWs).subset h2

theorem fix_id (t : List Char) (ht : ∀ c ∈ t, isPunct6 c = false) :
    fix_common_ocr_errors t = t := by
  have h6 : ∀ p : Char, isPunct6 p = true → p ∉ t := fun p hp hm => by
    rw [ht p hm] at hp
    exact Bool.false_ne_true hp
  unfold fix_common_ocr_errors
  simp only []
  rw [subDup_id '，' t (h6 _ (by decide)), subDup_id '。' t (h6 _ (by decide)),
    subDup_id '！' t (h6 _ (by decide)), subDup_id '？' t (h6 _ (by decide)),
    subDup_id '；' t (h6 _ (by decide)), subDup_id '：' t (h6 _ (by decide)),
    subWsPlus_id '，' t.length t (le_refl _) (h6 _ (by decide)),
    subWsStar_id '。' t.length t (le_refl _) (h6 _ (by decide)),
    subWsStar_id '！' t.length t (le_refl _) (h6 _ (by decide)),
    subWsStar_id '？' t.length t (le_refl _) (h6 _ (by decide)),
    subWsStar_id '；' t.length t (le_refl _) (h6 _ (by decide)),
    subWsStar_id '：' t.length t (le_refl _) (h6 _ (by decide)),
    subPunctWsPunct_id t ht]

theorem clean_eq_of_ne_nil (t : List Char) (ht : t ≠ []) :
    clean_ocr_text t = strip (fix_common_ocr_errors (collapseWs (strip t))) := by
  unfold clean_ocr_text
  rw [if_neg ht]

/-- Counterexample for C2: `。。。` (three identical sentence-final marks).
A single `re.sub` pass for `。\s*。` is non-overlapping — it consumes two
marks, emits one, and resumes after the match — so one cleaning pass leaves
`。。` and only a second pass reaches the fixed point `。`:
cleaning is not idempotent. -/
theorem c2_counterexample :
    clean_ocr_text (str "。。。") = str "。。" ∧
    clean_ocr_text (clean_ocr_text (str "。。。")) = str "。" ∧
    clean_ocr_text (clean_ocr_text (str "。。。")) ≠ clean_ocr_text (str "。。。") := by
  have h1 : clean_ocr_text (str "。。。") = str "。。" := by
    simp +decide [clean_ocr_text, fix_common_ocr_errors, subDup, subWsPlus, subWsStar,
      subPunctWsPunct, collapseWs, strip, isWs, isPunct6, str]
  have h2 : clean_ocr_text (str "。。") = str "。" := by
    simp +decide [clean_ocr_text, fix_common_ocr_errors, subDup, subWsPlus, subWsStar,
      subPunctWsPunct, collapseWs, strip, isWs, isPunct6, str]
  exact ⟨h1, by rw [h1, h2], by rw [h1, h2]; decide⟩

/-- C2 amended: `clean_ocr_text` is idempotent on every input containing
none of the six punctuation marks ，。！？；： targeted by the rewrite
table; on inputs with three or more consecutive identical marks a single
pass is not a fixed point (see the counterexample). -/
theorem c2_clean_idempotent_punct_free (s : List Char)
    (hs : ∀ c ∈ s, isPunct6 c = false) :
    clean_ocr_text (clean_ocr_text s) = clean_ocr_text s := by
  by_cases h0 : s = []
  · subst h0
    simp [clean_ocr_text]
  · have hpf1 : ∀ c ∈ collapseWs (strip s), isPunct6 c = false := by
      intro c hc
      rcases mem_collapseWs (strip s).length (strip s) (le_refl _) c hc with hc2 | rfl
      · exact hs c (mem_strip s c hc2)
      · decide
    have hcs : clean_ocr_text s = strip (collapseWs (strip s)) := by
      rw [clean_eq_of_ne_nil s h0, fix_id _ hpf1]
    by_cases h1 : clean_ocr_text s = []
    · rw [h1]
      simp [clean_ocr_text, h1]
    · have hpf2 : ∀ c ∈ clean_ocr_text s, isPunct6 c = false := by
        intro c hc
        rw [hcs] at hc
        exact hpf1 c (mem_strip _ c hc)
      have hstripc : strip (clean_ocr_text s) = clean_ocr_text s := by
        rw [hcs]; exact strip_idem _
      have hcoll : collapseWs (clean_ocr_text s) = clean_ocr_text s := by
        rw [hcs]; exact collapse_strip_collapse _
      rw [clean_eq_of_ne_nil _ h1, hstripc, hcoll, fix_id _ hpf2, hstripc]

/-- Witness for C2 amended: a punctuation-free string with internal
whitespace runs cleans to the same result twice. -/
theorem c2_clean_idempotent_punct_free_witness :
    (∀ c ∈ str "a  b\tc ", isPunct6 c = false) ∧
    clean_ocr_text (clean_ocr_text (str "a  b\tc ")) = clean_ocr_text (str "a  b\tc ") :=
  ⟨by decide, c2_clean_idempotent_punct_free (str "a  b\tc ") (by decide)⟩

/-! ## Blank-line structure of `format_markdown_structure` (C3) -/

/-- The line list begins with two blank (empty) lines. -/
def headTwoBlank (l : List (List Char)) : Bool :=
  decide (l.head? = some ([] : List Char)) && decide (l.tail.head? = some ([] : List Char))

/-- The line list contains two adjacent blank lines somewhere. -/
def hasTwoAdjacentBlank : List (List Char) → Bool
  | x :: rest =>
    (decide (x = ([] : List Char)) && decide (rest.head? = some ([] : List Char))) ||
      hasTwoAdjacentBlank rest
  | [] => false

/-- The line list contains three adjacent blank lines somewhere. -/
def hasThreeAdjacentBlank : List (List Char) → Bool
  | x :: rest => (decide (x = ([] : List Char)) && headTwoBlank rest) || hasThreeAdjacentBlank rest
  | [] => false

theorem headTwoBlank_iff (l : List (List Char)) :
    headTwoBlank l = true ↔ ∃ t, l = [] :: [] :: t := by
  rcases l with _ | ⟨x, rest⟩
  · simp [headTwoBlank]
  · rcases rest with _ | ⟨y, t⟩
    · simp [headTwoBlank]
    · simp only [headTwoBlank, List.head?_cons, List.tail_cons, Bool.and_eq_true,
        decide_eq_true_eq, Option.some_inj]
      constructor
      · rintro ⟨rfl, rfl⟩; exact ⟨t, rfl⟩
      · rintro ⟨t2, h⟩
        injection h with h1 h2
        injection h2 with h3 h4
        exact ⟨h1, h3⟩

theorem hasThree_iff (l : List (List Char)) :
    hasThreeAdjacentBlank l = true ↔
      ∃ pre post, l = pre ++ [] :: [] :: [] :: post := by
  induction l with
  | nil =>
    simp only [hasThreeAdjacentBlank]
    constructor
    · intro h; exact absurd h (by simp)
    · rintro ⟨pre, post, h⟩
      rcases pre with _ | ⟨p, pre2⟩ <;> simp at h
  | cons x rest ih =>
    simp only [hasThreeAdjacentBlank, Bool.or_eq_true, Bool.and_eq_true, decide_eq_true_eq,
      headTwoBlank_iff, ih]
    constructor
    · rintro (⟨rfl, t, rfl⟩ | ⟨pre, post, rfl⟩)
      · exact ⟨[], t, rfl⟩
      · exact ⟨x :: pre, post, rfl⟩
    · rintro ⟨pre, post, h⟩
      rcases pre with _ | ⟨p, pre2⟩
      · injection h with h1 h2
        exact Or.inl ⟨h1, post, h2⟩
      · injection h with h1 h2
        exact Or.inr ⟨pre2, post, h2⟩

theorem splitOnChar_no_sep (sep : Char) :
    ∀ (l : List Char), ∀ x ∈ splitOnChar sep l, sep ∉ x := by
  intro l
  induction l with
  | nil =>
    intro x hx
    simp only [splitOnChar, List.mem_singleton] at hx
    subst hx
    exact List.not_mem_nil sep
  | cons c rest ih =>
    intro x hx
    simp only [splitOnChar] at hx
    split at hx
    · rcases List.mem_cons.1 hx with rfl | hx
      · exact List.not_mem_nil sep
      · exact ih x hx
    · split at hx
      · rename_i p ps hps
        rcases List.mem_cons.1 hx with rfl | hx
        · intro hmem
          rcases List.mem_cons.1 hmem with rfl | hmem
          · exact absurd rfl (by assumption)
          · exact ih p (by rw [hps]; exact List.mem_cons_self p ps) hmem
        · exact ih x (by rw [hps]; exact List.mem_cons_of_mem p hx)
      · rcases List.mem_singleton.1 hx with rfl
        intro hmem
        rcases List.mem_cons.1 hmem with rfl | hmem
        · exact absurd rfl (by assumption)
        · exact List.not_mem_nil sep hmem

theorem splitOnChar_ne_nil (sep : Char) : ∀ (l : List Char), splitOnChar sep l ≠ [] := by
  intro l
  induction l with
  | nil => simp [splitOnChar]
  | cons c rest ih =>
    simp only [splitOnChar]
    split
    · simp
    · split
      · simp
      · simp

theorem splitOnChar_of_no_sep (sep : Char) :
    ∀ (piece : List Char), sep ∉ piece → splitOnChar sep piece = [piece] := by
  intro piece
  induction piece with
  | nil => intro _; rfl
  | cons c rest ih =>
    intro hp
    have hc : ¬ c = sep := fun h => hp (by rw [h]; exact List.mem_cons_self _ _)
    simp only [splitOnChar, if_neg hc,
      ih (fun hm => hp (List.mem_cons_of_mem c hm))]

theorem splitOnChar_append_sep (sep : Char) (piece rest : List Char) (hp : sep ∉ piece) :
    splitOnChar sep (piece ++ sep :: rest) = piece :: splitOnChar sep rest := by
  induction piece with
  | nil => simp [splitOnChar]
  | cons c p2 ih =>
    have hc : ¬ c = sep := fun h => hp (by rw [h]; exact List.mem_cons_self _ _)
    have ih2 := ih (fun hm => hp (List.mem_cons_of_mem c hm))
    simp only [List.cons_append, splitOnChar, if_neg hc, List.append_eq, ih2]

theorem intercalate_cons2 (sep : Char) (w w2 : List Char) (t : List (List Char)) :
    List.intercalate [sep] (w :: w2 :: t) = w ++ sep :: List.intercalate [sep] (w2 :: t) := by
  simp [List.intercalate, List.intersperse]

theorem splitOnChar_intercalate (sep : Char) :
    ∀ (ls : List (List Char)), ls ≠ [] → (∀ x ∈ ls, sep ∉ x) →
    splitOnChar sep (List.intercalate [sep] ls) = ls := by
  intro ls
  induction ls with
  | nil => intro h _; exact absurd rfl h
  | cons w t ih =>
    intro _ hns
    rcases t with _ | ⟨w2, t2⟩
    · rw [show List.intercalate [sep] [w] = w from by simp [List.intercalate]]
      exact splitOnChar_of_no_sep sep w (hns w (by simp))
    · rw [intercalate_cons2 sep w w2 t2,
        splitOnChar_append_sep sep w _ (hns w (by simp)),
        ih (by simp) (fun x hx => hns x (List.mem_cons_of_mem w hx))]

theorem strip_nil : strip ([] : List Char) = [] := rfl

theorem strip_eq_nil_imp (l : List Char) (h : strip l = []) : ∀ c ∈ l, isWs c = true := by
  intro c hc
  have hsplit := (List.takeWhile_append_dropWhile isWs l).symm
  unfold strip at h
  rw [List.reverse_eq_nil_iff, List.dropWhile_eq_nil_iff] at h
  rcases (List.mem_append.1 (by rw [hsplit] at hc; exact hc)) with hm | hm
  · exact List.mem_takeWhile_imp hm
  · exact h c (List.mem_reverse.2 hm)

theorem combine_strip_ne : ∀ (N : Nat) (parts : List (List Char)), parts.length ≤ N →
    ∀ u ∈ combineSentences parts, strip u ≠ [] := by
  intro N
  induction N with
  | zero =>
    intro parts hp u hu
    have : parts = [] := List.eq_nil_of_length_eq_zero (by omega)
    subst this
    simp [combineSentences] at hu
  | succ N ih =>
    intro parts hp u hu
    rcases parts with _ | ⟨p, t⟩
    · simp [combineSentences] at hu
    · rcases t with _ | ⟨s, rest⟩
      · simp only [combineSentences] at hu
        split at hu
        · rcases List.mem_singleton.1 hu with rfl
          assumption
        · simp at hu
      · simp only [combineSentences] at hu
        rcases List.mem_append.1 hu with hm | hm
        · split at hm
          · rcases List.mem_singleton.1 hm with rfl
            assumption
          · simp at hm
        · exact ih rest (by simp only [List.length_cons] at hp; omega) u hm

theorem combine_ne_of_nonws : ∀ (N : Nat) (parts : List (List Char)), parts.length ≤ N →
    (∃ x ∈ parts, ∃ c ∈ x, isWs c = false) → combineSentences parts ≠ [] := by
  intro N
  induction N with
  | zero =>
    intro parts hp hw
    have : parts = [] := List.eq_nil_of_length_eq_zero (by omega)
    subst this
    rcases hw with ⟨x, hx, -⟩
    simp at hx
  | succ N ih =>
    intro parts hp hw
    rcases parts with _ | ⟨p, t⟩
    · rcases hw with ⟨x, hx, -⟩
      simp at hx
    · rcases t with _ | ⟨s, rest⟩
      · rcases hw with ⟨x, hx, c, hc, hcw⟩
        rcases List.mem_singleton.1 hx with rfl
        have hsp : strip x ≠ [] := fun hnil => by
          have hws := strip_eq_nil_imp x hnil c hc
          rw [hcw] at hws
          exact Bool.false_ne_true hws
        simp only [combineSentences, if_pos hsp]
        simp
      · rcases hw with ⟨x, hx, c, hc, hcw⟩
        simp only [combineSentences]
        rcases List.mem_cons.1 hx with rfl | hx2
        · have hsp : strip (x ++ s) ≠ [] := fun hnil => by
            have hws := strip_eq_nil_imp _ hnil c (List.mem_append_left s hc)
            rw [hcw] at hws
            exact Bool.false_ne_true hws
          rw [if_pos hsp]
          simp
        · rcases List.mem_cons.1 hx2 with rfl | hx3
          · have hsp : strip (p ++ x) ≠ [] := fun hnil => by
              have hws := strip_eq_nil_imp _ hnil c (List.mem_append_right p hc)
              rw [hcw] at hws
              exact Bool.false_ne_true hws
            rw [if_pos hsp]
            simp
          · intro hcon
            rcases List.append_eq_nil.1 hcon with ⟨-, h2⟩
            exact ih rest (by simp only [List.length_cons] at hp; omega)
              ⟨x, hx3, c, hc, hcw⟩ h2

theorem splitPartsAux_ne_nil : ∀ (t : List Char), splitPartsAux t ≠ [] := by
  intro t
  induction t with
  | nil => simp [splitPartsAux]
  | cons c rest ih =>
    simp only [splitPartsAux]
    split
    · simp
    · split
      · simp
      · simp

theorem splitPartsAux_cover : ∀ (t : List Char) (c : Char), c ∈ t →
    ∃ x ∈ splitPartsAux t, c ∈ x := by
  intro t
  induction t with
  | nil => intro c hc; simp at hc
  | cons d rest ih =>
    intro c hc
    simp only [splitPartsAux]
    split
    · rcases List.mem_cons.1 hc with rfl | hc
      · exact ⟨[c], by simp, by simp⟩
      · rcases ih c hc with ⟨x, hx, hcx⟩
        exact ⟨x, by simp [hx], hcx⟩
    · split
      · rename_i p ps hps
        rcases List.mem_cons.1 hc with rfl | hc
        · exact ⟨c :: p, by simp, by simp⟩
        · rcases ih c hc with ⟨x, hx, hcx⟩
          rw [hps] at hx
          rcases List.mem_cons.1 hx with rfl | hx
          · exact ⟨d :: x, by simp, List.mem_cons_of_mem d hcx⟩
          · exact ⟨x, by simp [hx], hcx⟩
      · rename_i hps
        exact absurd hps (splitPartsAux_ne_nil rest)

theorem splitPartsAux_mem_sub : ∀ (t : List Char) (x : List Char), x ∈ splitPartsAux t →
    ∀ c ∈ x, c ∈ t := by
  intro t
  induction t with
  | nil =>
    intro x hx c hc
    simp only [splitPartsAux, List.mem_singleton] at hx
    subst hx
    simp at hc
  | cons d rest ih =>
    intro x hx c hc
    simp only [splitPartsAux] at hx
    split at hx
    · rcases List.mem_cons.1 hx with rfl | hx
      · simp at hc
      · rcases List.mem_cons.1 hx with rfl | hx
        · rcases List.mem_singleton.1 hc with rfl
          exact List.mem_cons_self _ _
        · exact List.mem_cons_of_mem d (ih x hx c hc)
    · split at hx
      · rename_i p ps hps
        rcases List.mem_cons.1 hx with rfl | hx
        · rcases List.mem_cons.1 hc with rfl | hc
          · exact List.mem_cons_self _ _
          · exact List.mem_cons_of_mem d
              (ih p (by rw [hps]; exact List.mem_cons_self p ps) c hc)
        · exact List.mem_cons_of_mem d
            (ih x (by rw [hps]; exact List.mem_cons_of_mem p hx) c hc)
      · rcases List.mem_singleton.1 hx with rfl
        rcases List.mem_singleton.1 hc with rfl
        exact List.mem_cons_self _ _

theorem combine_mem_sub : ∀ (N : Nat) (parts : List (List Char)), parts.length ≤ N →
    ∀ u ∈ combineSentences parts, ∀ c ∈ u, ∃ x ∈ parts, c ∈ x := by
  intro N
  induction N with
  | zero =>
    intro parts hp u hu
    have : parts = [] := List.eq_nil_of_length_eq_zero (by omega)
    subst this
    simp [combineSentences] at hu
  | succ N ih =>
    intro parts hp u hu c hc
    rcases parts with _ | ⟨p, t⟩
    · simp [combineSentences] at hu
    · rcases t with _ | ⟨s, rest⟩
      · simp only [combineSentences] at hu
        split at hu
        · rcases List.mem_singleton.1 hu with rfl
          exact ⟨u, by simp, hc⟩
        · simp at hu
      · simp only [combineSentences] at hu
        rcases List.mem_append.1 hu with hm | hm
        · split at hm
          · rcases List.mem_singleton.1 hm with rfl
            rcases List.mem_append.1 hc with hc | hc
            · exact ⟨p, by simp, hc⟩
            · exact ⟨s, by simp, hc⟩
          · simp at hm
        · rcases ih rest (by simp only [List.length_cons] at hp; omega) u hm c hc
            with ⟨x, hx, hcx⟩
          exact ⟨x, by simp [hx], hcx⟩

theorem packLines_ne_nil_mem : ∀ (units : List (List Char)) (cur : List Char),
    ∀ l ∈ packLines units cur, l ≠ [] := by
  intro units
  induction units with
  | nil =>
    intro cur l hl
    simp only [packLines] at hl
    split at hl
    · rcases List.mem_singleton.1 hl with rfl; assumption
    · simp at hl
  | cons s rest ih =>
    intro cur l hl
    simp only [packLines] at hl
    split at hl
    · exact ih s l hl
    · split at hl
      · exact ih _ l hl
      · rcases List.mem_cons.1 hl with rfl | hl
        · assumption
        · exact ih s l hl

theorem packLines_ne_nil : ∀ (units : List (List Char)) (cur : List Char), cur ≠ [] →
    packLines units cur ≠ [] := by
  intro units
  induction units with
  | nil =>
    intro cur hc
    simp only [packLines, if_pos hc]
    simp
  | cons s rest ih =>
    intro cur hc
    simp only [packLines, if_neg hc]
    split
    · exact ih _ (by simp [hc])
    · simp

theorem packLines_mem_sub : ∀ (units : List (List Char)) (cur : List Char),
    ∀ l ∈ packLines units cur, ∀ c ∈ l, (∃ u ∈ units, c ∈ u) ∨ c ∈ cur := by
  intro units
  induction units with
  | nil =>
    intro cur l hl c hc
    simp only [packLines] at hl
    split at hl
    · rcases List.mem_singleton.1 hl with rfl
      exact Or.inr hc
    · simp at hl
  | cons s rest ih =>
    intro cur l hl c hc
    simp only [packLines] at hl
    split at hl
    · rcases ih s l hl c hc with ⟨u, hu, hcu⟩ | hcs
      · exact Or.inl ⟨u, by simp [hu], hcu⟩
      · exact Or.inl ⟨s, by simp, hcs⟩
    · split at hl
      · rcases ih _ l hl c hc with ⟨u, hu, hcu⟩ | hcs
        · exact Or.inl ⟨u, by simp [hu], hcu⟩
        · rcases List.mem_append.1 hcs with hm | hm
          · exact Or.inr hm
          · exact Or.inl ⟨s, by simp, hm⟩
      · rcases List.mem_cons.1 hl with rfl | hl
        · exact Or.inr hc
        · rcases ih s l hl c hc with ⟨u, hu, hcu⟩ | hcs
          · exact Or.inl ⟨u, by simp [hu], hcu⟩
          · exact Or.inl ⟨s, by simp, hcs⟩

theorem format_paragraph_mem_sub (p : List Char) :
    ∀ l ∈ format_paragraph p, ∀ c ∈ l, c ∈ p := by
  intro l hl c hc
  unfold format_paragraph at hl
  split at hl
  · simp at hl
  · split at hl
    · rcases List.mem_singleton.1 hl with rfl
      exact hc
    · rcases packLines_mem_sub _ [] l hl c hc with ⟨u, hu, hcu⟩ | hm
      · rcases combine_mem_sub (splitPartsAux p).length _ (le_refl _) u hu c hcu
          with ⟨x, hx, hcx⟩
        exact splitPartsAux_mem_sub p x hx c hcx
      · simp at hm

theorem format_paragraph_ok (s : List Char) (hs : s ≠ []) (hstr : strip s = s) :
    format_paragraph s ≠ [] ∧ ∀ l ∈ format_paragraph s, l ≠ [] := by
  unfold format_paragraph
  rw [if_neg hs]
  split
  · exact ⟨by simp, fun l hl => by rcases List.mem_singleton.1 hl with rfl; exact hs⟩
  · have hune : split_sentences s ≠ [] := by
      rcases hcons : s with _ | ⟨c, cs⟩
      · exact absurd hcons hs
      · have hcw : isWs c = false := strip_noLead s c cs (by rw [hstr, hcons])
        rcases splitPartsAux_cover s c (by rw [hcons]; exact List.mem_cons_self _ _)
          with ⟨x, hx, hcx⟩
        rw [← hcons]
        exact combine_ne_of_nonws (splitPartsAux s).length _ (le_refl _) ⟨x, hx, c, hcx, hcw⟩
    rcases hu : split_sentences s with _ | ⟨u, us⟩
    · exact absurd hu hune
    · have hu0 : u ≠ [] := by
        intro hnil
        have := combine_strip_ne (splitPartsAux s).length _ (le_refl _) u
          (by rw [show combineSentences (splitPartsAux s) = split_sentences s from rfl, hu]
              exact List.mem_cons_self u us)
        rw [hnil, strip_nil] at this
        exact this rfl
      rw [show packLines (u :: us) [] = packLines us u from by simp [packLines]]
      exact ⟨packLines_ne_nil us u hu0, fun l hl => packLines_ne_nil_mem us u l hl⟩

/-- The loop body of `format_markdown_structure` seen from the end of the
accumulator: it acts on the reversed accumulator by prepending the reversed
block that `formatStep` appends (proof infrastructure for the blank-line
invariant). -/
def formatStepRev (racc : List (List Char)) (line : List Char) : List (List Char) :=
  let s := strip line
  if s = [] then
    if racc ≠ [] ∧ racc.head? ≠ some [] then [] :: racc else racc
  else if s.head? = some '#' then [] :: s :: racc
  else if markerStart.isPrefixOf s then [] :: s :: [] :: racc
  else if s = hrLine then [] :: s :: racc
  else [] :: (format_paragraph s).reverse ++ racc

theorem formatStep_reverse (acc : List (List Char)) (line : List Char) :
    (formatStep acc line).reverse = formatStepRev acc.reverse line := by
  unfold formatStep formatStepRev
  simp only []
  by_cases hs : strip line = []
  · rw [if_pos hs, if_pos hs]
    by_cases hg : acc ≠ [] ∧ acc.getLast? ≠ some []
    · rw [if_pos hg, if_pos ⟨by simpa using hg.1, by rw [List.head?_reverse]; exact hg.2⟩,
        List.reverse_append]
      simp
    · rw [if_neg hg, if_neg (fun hg2 => hg ⟨by simpa using hg2.1,
        by rw [← List.head?_reverse]; exact hg2.2⟩)]
  · rw [if_neg hs, if_neg hs]
    by_cases h1 : (strip line).head? = some '#'
    · rw [if_pos h1, if_pos h1, List.reverse_append]
      simp
    · rw [if_neg h1, if_neg h1]
      by_cases h2 : markerStart.isPrefixOf (strip line) = true
      · rw [if_pos h2, if_pos h2, List.reverse_append]
        simp
      · rw [if_neg h2, if_neg h2]
        by_cases h3 : strip line = hrLine
        · rw [if_pos h3, if_pos h3, List.reverse_append]
          simp
        · rw [if_neg h3, if_neg h3, List.reverse_append, List.reverse_append]
          simp

theorem foldl_formatStep_reverse : ∀ (lines : List (List Char)) (acc : List (List Char)),
    (lines.foldl formatStep acc).reverse = lines.foldl formatStepRev acc.reverse := by
  intro lines
  induction lines with
  | nil => intro acc; rfl
  | cons li rest ih =>
    intro acc
    rw [List.foldl_cons, List.foldl_cons, ih, formatStep_reverse]

/-- The invariant of the reversed accumulator: no three adjacent blank
lines anywhere, and no two blank lines at the head (= the end of the
emitted output so far). -/
def BlankOk (racc : List (List Char)) : Prop :=
  hasThreeAdjacentBlank racc = false ∧ headTwoBlank racc = false

theorem blankOk_nil : BlankOk [] := ⟨rfl, rfl⟩

theorem headTwoBlank_cons_ne (s : List Char) (racc : List (List Char)) (hs : s ≠ []) :
    headTwoBlank (s :: racc) = false := by
  simp [headTwoBlank, hs]

theorem hasThree_cons_ne (s : List Char) (racc : List (List Char)) (hs : s ≠ []) :
    hasThreeAdjacentBlank (s :: racc) = hasThreeAdjacentBlank racc := by
  simp [hasThreeAdjacentBlank, hs]

theorem hasThree_nonblank_prepend : ∀ (qs : List (List Char)) (racc : List (List Char)),
    (∀ q ∈ qs, q ≠ []) →
    hasThreeAdjacentBlank (qs ++ racc) = hasThreeAdjacentBlank racc := by
  intro qs
  induction qs with
  | nil => intro racc _; rfl
  | cons q qs2 ih =>
    intro racc hq
    rw [List.cons_append, hasThree_cons_ne q _ (hq q (by simp)),
      ih racc (fun x hx => hq x (by simp [hx]))]

theorem blankOk_blank (racc : List (List Char)) (h : BlankOk racc)
    (hhead : racc.head? ≠ some []) : BlankOk ([] :: racc) := by
  refine ⟨?_, ?_⟩
  · simp only [hasThreeAdjacentBlank, h.1, Bool.or_false, Bool.and_eq_false_iff]
    right
    simp [headTwoBlank, hhead]
  · simp [headTwoBlank, hhead]

theorem blankOk_two (s : List Char) (racc : List (List Char)) (hs : s ≠ [])
    (h : BlankOk racc) : BlankOk ([] :: s :: racc) := by
  refine ⟨?_, ?_⟩
  · rw [show hasThreeAdjacentBlank ([] :: s :: racc) =
      (((decide (([] : List Char) = [])) && headTwoBlank (s :: racc)) ||
        hasThreeAdjacentBlank (s :: racc)) from rfl,
      headTwoBlank_cons_ne s racc hs, hasThree_cons_ne s racc hs, h.1]
    simp
  · simp [headTwoBlank, hs]

theorem blankOk_marker (s : List Char) (racc : List (List Char)) (hs : s ≠ [])
    (h : BlankOk racc) : BlankOk ([] :: s :: [] :: racc) := by
  refine ⟨?_, ?_⟩
  · rw [show hasThreeAdjacentBlank ([] :: s :: [] :: racc) =
      (((decide (([] : List Char) = [])) && headTwoBlank (s :: [] :: racc)) ||
        hasThreeAdjacentBlank (s :: [] :: racc)) from rfl,
      headTwoBlank_cons_ne s _ hs, hasThree_cons_ne s _ hs,
      show hasThreeAdjacentBlank ([] :: racc) =
        (((decide (([] : List Char) = [])) && headTwoBlank racc) ||
          hasThreeAdjacentBlank racc) from rfl,
      h.1, h.2]
    simp
  · simp [headTwoBlank, hs]

theorem blankOk_para (ps : List (List Char)) (racc : List (List Char))
    (hne : ps ≠ []) (hnb : ∀ p ∈ ps, p ≠ []) (h : BlankOk racc) :
    BlankOk ([] :: ps.reverse ++ racc) := by
  rcases hrev : ps.reverse with _ | ⟨q, qs⟩
  · exact absurd (by simpa using congrArg List.reverse hrev) hne
  · have hq : q ≠ [] := hnb q (by rw [← List.mem_reverse, hrev]; simp)
    have hqs : ∀ x ∈ qs, x ≠ [] := fun x hx =>
      hnb x (by rw [← List.mem_reverse, hrev]; simp [hx])
    refine ⟨?_, ?_⟩
    · simp only [List.cons_append, hasThreeAdjacentBlank]
      simp [headTwoBlank, hq, hasThree_nonblank_prepend qs racc hqs, h.1]
    · simp only [List.cons_append]
      simp [headTwoBlank, hq]

theorem blankOk_step (racc : List (List Char)) (line : List Char) (h : BlankOk racc) :
    BlankOk (formatStepRev racc line) := by
  unfold formatStepRev
  simp only []
  by_cases hs : strip line = []
  · rw [if_pos hs]
    by_cases hg : racc ≠ [] ∧ racc.head? ≠ some []
    · rw [if_pos hg]
      exact blankOk_blank racc h hg.2
    · rw [if_neg hg]
      exact h
  · rw [if_neg hs]
    have hfp := format_paragraph_ok (strip line) hs (strip_idem line)
    by_cases h1 : (strip line).head? = some '#'
    · rw [if_pos h1]
      exact blankOk_two _ racc hs h
    · rw [if_neg h1]
      by_cases h2 : markerStart.isPrefixOf (strip line) = true
      · rw [if_pos h2]
        exact blankOk_marker _ racc hs h
      · rw [if_neg h2]
        by_cases h3 : strip line = hrLine
        · rw [if_pos h3]
          exact blankOk_two _ racc hs h
        · rw [if_neg h3]
          exact blankOk_para _ racc hfp.1 hfp.2 h

theorem blankOk_foldl : ∀ (lines : List (List Char)) (racc : List (List Char)),
    BlankOk racc → BlankOk (lines.foldl formatStepRev racc) := by
  intro lines
  induction lines with
  | nil => intro racc h; exact h
  | cons li rest ih => intro racc h; exact ih _ (blankOk_step racc li h)

theorem foldl_formatStep_no_newline :
    ∀ (lines : List (List Char)) (acc : List (List Char)),
    (∀ li ∈ lines, '\n' ∉ li) → (∀ x ∈ acc, '\n' ∉ x) →
    ∀ x ∈ lines.foldl formatStep acc, '\n' ∉ x := by
  intro lines
  induction lines with
  | nil => intro acc _ hacc; exact hacc
  | cons li rest ih =>
    intro acc hlines hacc
    rw [List.foldl_cons]
    refine ih _ (fun x hx => hlines x (by simp [hx])) ?_
    have hline : '\n' ∉ li := hlines li (by simp)
    have hstripline : ∀ c ∈ strip li, c ≠ '\n' := fun c hc hcn =>
      hline (hcn ▸ mem_strip li c hc)
    intro x hx
    unfold formatStep at hx
    simp only [] at hx
    split at hx
    · split at hx
      · rcases List.mem_append.1 hx with hm | hm
        · exact hacc x hm
        · rcases List.mem_singleton.1 hm with rfl
          simp
      · exact hacc x hx
    · split at hx
      · rcases List.mem_append.1 hx with hm | hm
        · exact hacc x hm
        · rcases List.mem_cons.1 hm with rfl | hm
          · intro hmem; exact hstripline _ hmem rfl
          · rcases List.mem_singleton.1 hm with rfl; simp
      · split at hx
        · rcases List.mem_append.1 hx with hm | hm
          · exact hacc x hm
          · rcases List.mem_cons.1 hm with rfl | hm
            · simp
            · rcases List.mem_cons.1 hm with rfl | hm
              · intro hmem; exact hstripline _ hmem rfl
              · rcases List.mem_singleton.1 hm with rfl; simp
        · split at hx
          · rcases List.mem_append.1 hx with hm | hm
            · exact hacc x hm
            · rcases List.mem_cons.1 hm with rfl | hm
              · intro hmem; exact hstripline _ hmem rfl
              · rcases List.mem_singleton.1 hm with rfl; simp
          · rcases List.mem_append.1 hx with hm | hm
            · rcases List.mem_append.1 hm with hm2 | hm2
              · exact hacc x hm2
              · intro hmem
                exact hstripline '\n' (format_paragraph_mem_sub _ x hm2 '\n' hmem) rfl
            · rcases List.mem_singleton.1 hm with rfl; simp

theorem format_markdown_lines_no_newline (markdownText : List Char) :
    ∀ x ∈ format_markdown_lines markdownText, '\n' ∉ x := by
  intro x hx
  unfold format_markdown_lines at hx
  rw [List.mem_reverse] at hx
  have h2 := (List.dropWhile_sublist (fun l => decide (l = []))).subset hx
  rw [List.mem_reverse] at h2
  exact foldl_formatStep_no_newline _ []
    (fun li hli => splitOnChar_no_sep '\n' markdownText li hli) (by simp) x h2

/-- Counterexample for C3: the Markdown generated for two simple pages —
whose page-break marker item embeds leading and trailing newlines, so the
markers arrive at `format_markdown_structure` as marker lines — is formatted
with two consecutive blank lines before the page-break marker line: the
marker branch prepends a blank line without checking whether the previous
emitted line is already blank. -/
theorem c3_counterexample :
    hasTwoAdjacentBlank (splitOnChar '\n' (format_markdown_structure
      (generate_markdown
        [process_page_content 1 (str "a"), process_page_content 2 (str "b")] [] []))) =
      true := by
  have hmd : generate_markdown
      [process_page_content 1 (str "a"), process_page_content 2 (str "b")] [] [] =
      str "---\n\na\n\n\n--- 第 2 页 ---\n\n\nb\n\n---\n\n*本文档由小红书图片转Markdown工具自动生成*" := by
    simp +decide [generate_markdown, process_page_content, clean_ocr_text,
      fix_common_ocr_errors, subDup, subWsPlus, subWsStar, subPunctWsPunct, collapseWs,
      strip, isWs, split_into_paragraphs, splitOnChar, paragraphStep, isNewParagraphStart,
      startsParenNum, startsNumDot, startsCjkNum, startsBullet, isCjkNumeral,
      connect_paragraphs_between_pages, pageMarker, natToChars, natToCharsAux, digitChar,
      str, List.intercalate, List.intersperse]
  rw [hmd]
  decide

/-- C3 amended: the text returned by `format_markdown_structure` never
contains three or more consecutive blank lines, for every input string.
Two consecutive blank lines do occur (only immediately before a page-break
marker line, whose branch unconditionally prepends one blank line — see the
counterexample), so "never two or more" is false but "never three or more"
holds. -/
theorem c3_no_three_consecutive_blank_lines (markdownText : List Char) :
    hasThreeAdjacentBlank (splitOnChar '\n' (format_markdown_structure markdownText)) =
      false := by
  by_cases h0 : markdownText = []
  · subst h0
    decide
  · unfold format_markdown_structure
    rw [if_neg h0]
    by_cases hL : format_markdown_lines markdownText = []
    · rw [hL]
      decide
    · rw [splitOnChar_intercalate '\n' _ hL (format_markdown_lines_no_newline markdownText)]
      have hOk : BlankOk (((splitOnChar '\n' markdownText).foldl formatStep []).reverse) := by
        rw [foldl_formatStep_reverse]
        simpa using blankOk_foldl (splitOnChar '\n' markdownText) [] blankOk_nil
      unfold format_markdown_lines
      rcases Bool.eq_false_or_eq_true (hasThreeAdjacentBlank
        (((((splitOnChar '\n' markdownText).foldl formatStep []).reverse).dropWhile
          (fun l => decide (l = []))).reverse)) with hX | hX
      · exfalso
        rcases (hasThree_iff _).1 hX with ⟨pre, post, hdec⟩
        have h3 := congrArg List.reverse hdec
        rw [List.reverse_reverse] at h3
        have h4 : (((splitOnChar '\n' markdownText).foldl formatStep []).reverse) =
            ((((splitOnChar '\n' markdownText).foldl formatStep []).reverse).takeWhile
              (fun l => decide (l = []))) ++
            (post.reverse ++ [] :: [] :: [] :: pre.reverse) := by
          rw [← show (pre ++ [] :: [] :: [] :: post).reverse =
              post.reverse ++ [] :: [] :: [] :: pre.reverse from by
            simp [List.reverse_append], ← h3, List.takeWhile_append_dropWhile]
        have h5 : hasThreeAdjacentBlank
            (((splitOnChar '\n' markdownText).foldl formatStep []).reverse) = true :=
          (hasThree_iff _).2
            ⟨(((splitOnChar '\n' markdownText).foldl formatStep []).reverse).takeWhile
              (fun l => decide (l = [])) ++ post.reverse, pre.reverse, by
              nth_rewrite 1 [h4]
              simp [List.append_assoc]⟩
        rw [hOk.1] at h5
        exact Bool.false_ne_true h5
      · exact hX

end Pic2Md
